import Mathlib

/-!
# Verification of the `plem` header parser (`src/header.rs`)

Shallow embedding of the nom-based header-line parser of the repository.
Inputs are modelled as `List Char`; every nom parser of the source becomes
a Lean function returning `Option (remaining × value)` (`none` = nom error).
The `unreachable!` traps of `Value::as_str` / `Value::as_usize` are modelled
as `none` in the fold phase, surfaced as the distinct outcome
`ParseOutcome.trap` (a Rust panic), kept apart from ordinary parse failure.
-/

namespace Plem

/-- Input fragments: Rust `&str`, modelled as a list of characters. -/
abbrev Str := List Char

/-- Characters matched by nom's `space0` (`character::complete::space0`):
ASCII space and tab. -/
def isSpaceTab (c : Char) : Bool := c = ' ' || c = '\t'

/-- nom `space0`: consume the maximal run of spaces/tabs; never fails. -/
def space0 (i : Str) : Str := i.dropWhile isSpaceTab

/-- nom `char(c)`: consume exactly the character `c` or fail. -/
def pchar (c : Char) (i : Str) : Option Str :=
  match i with
  | [] => none
  | x :: xs => if x = c then some xs else none

/-- nom `take_until(pat)` for a single-character pattern `c` (all patterns in
the source are single characters `":"`, `","`, `"\""`): the output is the
input up to the first occurrence of `c`, the remaining input starts at that
occurrence (`c` is not consumed); fails when `c` does not occur.
Returns `(remaining, taken)`. -/
def takeUntil (c : Char) (i : Str) : Option (Str × Str) :=
  if c ∈ i then some (i.dropWhile (fun x => x ≠ c), i.takeWhile (fun x => x ≠ c))
  else none

/-- Rust `nom::character::is_digit(x as u8)` applied to a `char` `x`: the
scalar value is truncated to 8 bits (`as u8`) and tested for ASCII `0`-`9`. -/
def isDigitCast (c : Char) : Bool := 48 ≤ c.toNat % 256 && c.toNat % 256 ≤ 57

/-- Plain ASCII decimal digit, as accepted by `u64::from_str_radix(_, 10)`. -/
def isAsciiDigit (c : Char) : Bool := 48 ≤ c.toNat && c.toNat ≤ 57

/-- Base-10 value of a digit string (most significant first). -/
def digitsToNat (ds : Str) : Nat := ds.foldl (fun a c => a * 10 + (c.toNat - 48)) 0

/-- `u64::from_str_radix(s, 10)`: succeeds on a non-empty all-ASCII-digit
string whose value fits in 64 bits, fails otherwise (empty input, an invalid
digit, or `PosOverflow`).  A leading `+`, which Rust would also accept, cannot
occur here: the argument is always a run of `isDigitCast` characters. -/
def fromStrRadix10 (s : Str) : Option Nat :=
  if s ≠ [] ∧ (∀ c ∈ s, isAsciiDigit c) ∧ digitsToNat s < 2 ^ 64 then
    some (digitsToNat s)
  else none

/-- The source's `enum Value { Numeric(u64), String(String) }`. -/
inductive Value
  | Numeric (n : Nat)
  | String (s : Str)
deriving DecidableEq, Repr

/-- `Value::as_str`: the `String` payload; the `unreachable!("must")` trap on a
`Numeric` value is modelled as `none`. -/
def Value.as_str : Value → Option Str
  | .String s => some s
  | .Numeric _ => none

/-- `Value::as_usize`: the `Numeric` payload (`u64 as usize` is the identity on
a 64-bit target); the `unreachable!("must")` trap on a `String` value is
modelled as `none`. -/
def Value.as_usize : Value → Option Nat
  | .Numeric n => some n
  | .String _ => none

/-- The source's `enum ValueType`. -/
inductive ValueType
  | Numeric
  | String
deriving DecidableEq, Repr

/-- The lazily-initialized `SUPPORTED` map, as a lookup function:
`{"pallet": String, "extrinsic": String, "steps": Numeric, "repeat": Numeric}`. -/
def SUPPORTED (k : Str) : Option ValueType :=
  if k = "pallet".toList then some ValueType.String
  else if k = "extrinsic".toList then some ValueType.String
  else if k = "steps".toList then some ValueType.Numeric
  else if k = "repeat".toList then some ValueType.Numeric
  else none

/-- `str::to_lowercase`, restricted to ASCII case mapping (all recognized keys
are ASCII; `Char.toLower` agrees with Rust on ASCII input). -/
def toLowerStr (s : Str) : Str := s.map Char.toLower

/-- `unquote_val`: `preceded(tuple((char('"'), space0)),
terminated(take_until("\""), tuple((char('"'), space0))))`.
Returns `(remaining, contents)`. -/
def unquote_val (i : Str) : Option (Str × Str) :=
  match pchar '"' i with
  | none => none
  | some i1 =>
    match takeUntil '"' (space0 i1) with
    | none => none
    | some (r, content) =>
      match pchar '"' r with
      | none => none
      | some r2 => some (space0 r2, content)

/-- `string_val`: `map_parser(take_until(","), unquote_val)` mapped into
`Value::String`.  `map_parser` runs `unquote_val` on the slice before the
first comma and drops that inner parser's leftover. -/
def string_val (i : Str) : Option (Str × Value) :=
  match takeUntil ',' i with
  | none => none
  | some (rest, slice) =>
    match unquote_val slice with
    | none => none
    | some (_, s) => some (rest, Value.String s)

/-- `numeric_val`: `tuple((space0, take_till(|x| !is_digit(x as u8)), space0))`
followed by `u64::from_str_radix(digits, 10)`; a conversion error (empty digit
run, invalid digit, overflow) is a nom error. -/
def numeric_val (i : Str) : Option (Str × Value) :=
  let i1 := space0 i
  let digits := i1.takeWhile isDigitCast
  let r := space0 (i1.dropWhile isDigitCast)
  match fromStrRadix10 digits with
  | some n => some (r, Value.Numeric n)
  | none => none

/-- `take_header_info_kv`: explicit `Eof` failure on empty input, then
`tuple((take_until(":"), char(':'), space0, alt((numeric_val, string_val)),
space0, opt(tuple((char(','), space0)))))`, keeping `(key, value)`. -/
def take_header_info_kv (i : Str) : Option (Str × (Str × Value)) :=
  if i = [] then none
  else
    match takeUntil ':' i with
    | none => none
    | some (r1, k) =>
      match pchar ':' r1 with
      | none => none
      | some r2 =>
        match (match numeric_val (space0 r2) with
               | some x => some x
               | none => string_val (space0 r2)) with
        | none => none
        | some (r4, v) =>
          let r5 := space0 r4
          let r6 := match pchar ',' r5 with
                    | some r => space0 r
                    | none => r5
          some (r6, (k, v))

/-- Fuelled recursion for nom's `many1(take_header_info_kv)`; the fuel is a
strict upper bound on the input length and never runs out (every successful
pair consumes at least one character, `take_header_info_kv_length`). -/
def many1_go : Nat → Str → Option (Str × List (Str × Value))
  | 0, _ => none
  | fuel + 1, i =>
    match take_header_info_kv i with
    | none => none
    | some (r, kv) =>
      match many1_go fuel r with
      | none => some (r, [kv])
      | some (r2, kvs) => some (r2, kv :: kvs)

/-- nom `many1(take_header_info_kv)`: repeat while the pair parser succeeds;
fails when the first application fails. -/
def many1_kv (i : Str) : Option (Str × List (Str × Value)) :=
  many1_go (i.length + 1) i

/-- The parsing phase of `parse_header_info`:
`all_consuming(preceded(tuple((char('"'), space0)),
terminated(many1(take_header_info_kv), tuple((space0, char('"'), space0)))))`.
Returns the (empty) remaining input and the list of raw key/value pairs. -/
def parse_header_pairs (i : Str) : Option (Str × List (Str × Value)) :=
  match pchar '"' i with
  | none => none
  | some i1 =>
    match many1_kv (space0 i1) with
    | none => none
    | some (r, kvs) =>
      match pchar '"' (space0 r) with
      | none => none
      | some r2 =>
        let r3 := space0 r2
        if r3 = [] then some (r3, kvs) else none

/-- The source's `struct HeaderInfo`. -/
structure HeaderInfo where
  «repeat» : Nat
  steps : Nat
  pallet_name : Str
  extrinsic : Str
deriving DecidableEq, Repr

/-- `HeaderInfo::default()`: all fields zero / empty. -/
def HeaderInfo.default : HeaderInfo :=
  { «repeat» := 0, steps := 0, pallet_name := [], extrinsic := [] }

/-- One step of the `try_fold` in `parse_header_info`: lowercase the key, look
it up in `SUPPORTED`, assign the matching field (`none` models the
`unreachable!` panic of `as_usize` / `as_str` on a type mismatch, and the
`unreachable!` arms for keys that cannot miss the inner match), or log a
warning and keep the accumulator unchanged for an unrecognized key. -/
def apply_kv (h : HeaderInfo) (k0 : Str) (v : Value) : Option HeaderInfo :=
  let k := toLowerStr k0
  match SUPPORTED k with
  | some ValueType.Numeric =>
    if k = "repeat".toList then (v.as_usize).map (fun n => { h with «repeat» := n })
    else if k = "steps".toList then (v.as_usize).map (fun n => { h with steps := n })
    else none
  | some ValueType.String =>
    if k = "pallet".toList then (v.as_str).map (fun s => { h with pallet_name := s })
    else if k = "extrinsic".toList then (v.as_str).map (fun s => { h with extrinsic := s })
    else none
  | none => some h

/-- The `try_fold` over the parsed pairs, from an arbitrary accumulator. -/
def fold_pairs_from (h : HeaderInfo) : List (Str × Value) → Option HeaderInfo
  | [] => some h
  | kv :: rest =>
    match apply_kv h kv.1 kv.2 with
    | none => none
    | some h1 => fold_pairs_from h1 rest

/-- The `try_fold` of `parse_header_info`, from `HeaderInfo::default()`. -/
def fold_pairs (l : List (Str × Value)) : Option HeaderInfo :=
  fold_pairs_from HeaderInfo.default l

/-- Observable outcome of `parse_header_info`: nom success (remaining input
and record), nom failure, or a Rust panic via `unreachable!`. -/
inductive ParseOutcome
  | success (rest : Str) (h : HeaderInfo)
  | failure
  | trap
deriving DecidableEq, Repr

/-- `parse_header_info`: the parsing phase followed by the `try_fold`;
a nom error propagates as `failure`, an `unreachable!` panic as `trap`. -/
def parse_header_info (i : Str) : ParseOutcome :=
  match parse_header_pairs i with
  | none => ParseOutcome.failure
  | some (rest, kvs) =>
    match fold_pairs kvs with
    | none => ParseOutcome.trap
    | some h => ParseOutcome.success rest h

/-- Convenience: a Lean string literal as parser input. -/
def lchars (s : String) : Str := s.toList

/-- Numeric payload of a value (0 on a `String`; used only where the fold is
known to have assigned the field from a `Numeric` value). -/
def numOf : Value → Nat
  | .Numeric n => n
  | .String _ => 0

/-- String payload of a value (empty on a `Numeric`; used only where the fold
is known to have assigned the field from a `String` value). -/
def strOf : Value → Str
  | .String s => s
  | .Numeric _ => []

/-- Occurrences of a given (lowercase) key among the parsed pairs, in input
order. -/
def occ (key : Str) (l : List (Str × Value)) : List (Str × Value) :=
  l.filter (fun kv => decide (toLowerStr kv.1 = key))

/-- Left fold tracking one metadata field across the parsed pairs: every pair
whose lowercased key equals `key` overwrites the accumulator with `f` of its
value; all other pairs leave it unchanged. -/
def field_fold (key : Str) (f : Value → β) (d : β) (l : List (Str × Value)) : β :=
  l.foldl (fun a kv => if toLowerStr kv.1 = key then f kv.2 else a) d

/-- Value container matches the type the recognized-key table expects (holds
vacuously for unrecognized keys). -/
def typeOk (kv : Str × Value) : Prop :=
  match SUPPORTED (toLowerStr kv.1) with
  | some ValueType.Numeric => ∃ n, kv.2 = Value.Numeric n
  | some ValueType.String => ∃ s, kv.2 = Value.String s
  | none => True

/-- Input ends (after optional spaces/tabs) with a closing double quote: the
shape every accepted header must have. -/
def ends_quote_spaces (i : Str) : Bool :=
  match (i.reverse.dropWhile isSpaceTab) with
  | [] => false
  | c :: _ => c = '"'

/-- First character, when present, is not a space or tab. -/
def headNotSpace (x : Str) : Prop :=
  ∀ c, x.head? = some c → isSpaceTab c = false

/-- Syntactic value of a header pair before rendering: either a digit run or
a string to be quoted. -/
inductive RVal
  | num (ds : Str)
  | str (s : Str)
deriving DecidableEq, Repr

/-- Rendering of a syntactic value: digit runs bare, strings in quotes. -/
def render_rval : RVal → Str
  | .num ds => ds
  | .str s => '"' :: s ++ ['"']

/-- Typed value the parser is expected to produce for a syntactic value. -/
def rval_value : RVal → Value
  | .num ds => Value.Numeric (digitsToNat ds)
  | .str s => Value.String s

/-- First character, when present, is not a space/tab (the preceding `space0`
must stop there), not a comma (the preceding pair's optional separator must
not swallow it) and not a digit-cast character (a preceding digit scan must
not absorb it). -/
def headGood (x : Str) : Prop :=
  ∀ c, x.head? = some c → isSpaceTab c = false ∧ c ≠ ',' ∧ isDigitCast c = false

/-- Run of spaces/tabs. -/
def allSpace (x : Str) : Prop := ∀ c ∈ x, isSpaceTab c = true

/-- Well-formed key: no colon (the key is read with `take_until(":")`) and a
first character that no preceding consumer can absorb. -/
def wf_key (k : Str) : Prop := ':' ∉ k ∧ headGood k

/-- Well-formed syntactic value: a digit run is non-empty, all ASCII digits,
in 64-bit range; a string contains no quote (no escape mechanism exists) and
no comma (`string_val` scans with `take_until(",")`), and no leading space
(which `unquote_val` would strip). -/
def wf_rval : RVal → Prop
  | .num ds => ds ≠ [] ∧ (∀ c ∈ ds, isAsciiDigit c = true) ∧ digitsToNat ds < 2 ^ 64
  | .str s => '"' ∉ s ∧ ',' ∉ s ∧ headNotSpace s

/-- Boolean test for a numeric syntactic value. -/
def rval_is_num : RVal → Bool
  | .num _ => true
  | .str _ => false

/-- A rendered pair: the key, the whitespace after its colon, and the value. -/
structure RPair where
  key : Str
  wc : Str
  val : RVal
deriving DecidableEq, Repr

/-- A pair separator: a comma with whitespace on both sides, or (after a
numeric value only) plain non-empty whitespace — the grammar's `(',' WS)?`
makes the comma optional. -/
inductive RSep
  | comma (s t : Str)
  | blank (u : Str)
deriving DecidableEq, Repr

/-- Rendering of one pair: `key ':' WS value`. -/
def render_rpair (p : RPair) : Str := p.key ++ ':' :: (p.wc ++ render_rval p.val)

/-- Rendering of a separator. -/
def render_sep : RSep → Str
  | .comma s t => s ++ ',' :: t
  | .blank u => u

/-- Rendering of a non-empty pair sequence: each leading pair followed by its
separator, then the final pair. -/
def render_seq : List (RPair × RSep) → RPair → Str
  | [], q => render_rpair q
  | (p, sep) :: rest, q => render_rpair p ++ (render_sep sep ++ render_seq rest q)

/-- Rendering of a whole header line with whitespace in every grammar slot:
after the opening quote, after each colon, around each separator, before and
after the closing quote. -/
def render_header_ws (w0 : Str) (ps : List (RPair × RSep)) (q : RPair)
    (w5 w6 : Str) : Str :=
  '"' :: (w0 ++ (render_seq ps q ++ (w5 ++ '"' :: w6)))

/-- The typed pair the parser is expected to produce for a rendered pair. -/
def ab2 (p : RPair) : Str × Value := (p.key, rval_value p.val)

/-- Well-formed rendered pair: well-formed key and value, whitespace after
the colon. -/
def wf_rpair (p : RPair) : Prop := wf_key p.key ∧ wf_rval p.val ∧ allSpace p.wc

/-- Well-formed separator for its preceding pair: its whitespace is
spaces/tabs, and a comma-less separator may only follow a numeric value
(after a quoted string the comma is mandatory — without it the next pair
would be swallowed by `map_parser`'s dropped leftover). -/
def sep_ok (e : RPair × RSep) : Bool :=
  match e.2 with
  | RSep.comma s t => s.all isSpaceTab && t.all isSpaceTab
  | RSep.blank u => u.all isSpaceTab && rval_is_num e.1.val

/-- On success a key/value pair consumes at least the `':'` character, so the
remaining input is strictly shorter (justifies termination of `many1`). -/
theorem take_header_info_kv_length {i r : Str} {kv : Str × Value}
    (h : take_header_info_kv i = some (r, kv)) : r.length < i.length := by
  unfold take_header_info_kv at h
  by_cases hi : i = []
  · simp [hi] at h
  · simp only [hi, if_false] at h
    cases htu : takeUntil ':' i with
    | none => simp [htu] at h
    | some p =>
      obtain ⟨r1, k⟩ := p
      simp only [htu] at h
      cases hc : pchar ':' r1 with
      | none => simp [hc] at h
      | some r2 =>
        simp only [hc] at h
        have hr1 : r1.length ≤ i.length := by
          unfold takeUntil at htu
          by_cases hm : ':' ∈ i
          · simp only [hm, if_true, Option.some.injEq, Prod.mk.injEq] at htu
            have := htu.1
            subst this
            exact List.Sublist.length_le (List.dropWhile_sublist _)
          · simp [hm] at htu
        have hr2 : r2.length < r1.length := by
          unfold pchar at hc
          cases r1 with
          | nil => simp at hc
          | cons x xs =>
            by_cases hx : x = ':'
            · simp only [hx, if_true] at hc
              cases hc
              simp
            · simp [hx] at hc
        have hval : ∀ r4 v, (match numeric_val (space0 r2) with
               | some x => some x
               | none => string_val (space0 r2)) = some (r4, v) →
               r4.length ≤ r2.length := by
          intro r4 v hv
          have hs0 : (space0 r2).length ≤ r2.length :=
            List.Sublist.length_le (List.dropWhile_sublist _)
          cases hn : numeric_val (space0 r2) with
          | some x =>
            simp only [hn] at hv
            cases hv
            unfold numeric_val at hn
            simp only at hn
            cases hfr : fromStrRadix10 ((space0 (space0 r2)).takeWhile isDigitCast) with
            | none => simp [hfr] at hn
            | some n =>
              simp only [hfr, Option.some.injEq, Prod.mk.injEq] at hn
              have := hn.1
              subst this
              calc (space0 ((space0 (space0 r2)).dropWhile isDigitCast)).length
                  ≤ ((space0 (space0 r2)).dropWhile isDigitCast).length :=
                    List.Sublist.length_le (List.dropWhile_sublist _)
                _ ≤ (space0 (space0 r2)).length :=
                    List.Sublist.length_le (List.dropWhile_sublist _)
                _ ≤ (space0 r2).length :=
                    List.Sublist.length_le (List.dropWhile_sublist _)
                _ ≤ r2.length := hs0
          | none =>
            simp only [hn] at hv
            unfold string_val at hv
            cases htc : takeUntil ',' (space0 r2) with
            | none => simp [htc] at hv
            | some p2 =>
              obtain ⟨rr, slice⟩ := p2
              simp only [htc] at hv
              cases hu : unquote_val slice with
              | none => simp [hu] at hv
              | some q =>
                obtain ⟨lft, s⟩ := q
                simp only [hu, Option.some.injEq, Prod.mk.injEq] at hv
                have := hv.1
                subst this
                unfold takeUntil at htc
                by_cases hm : ',' ∈ space0 r2
                · simp only [hm, if_true, Option.some.injEq, Prod.mk.injEq] at htc
                  have := htc.1
                  subst this
                  calc ((space0 r2).dropWhile (fun x => x ≠ ',')).length
                      ≤ (space0 r2).length :=
                        List.Sublist.length_le (List.dropWhile_sublist _)
                    _ ≤ r2.length := hs0
                · simp [hm] at htc
        cases hv : (match numeric_val (space0 r2) with
               | some x => some x
               | none => string_val (space0 r2)) with
        | none => simp [hv] at h
        | some p3 =>
          obtain ⟨r4, v⟩ := p3
          simp only [hv, Option.some.injEq, Prod.mk.injEq] at h
          have hr4 : r4.length ≤ r2.length := hval r4 v hv
          have hr6 : r.length ≤ r4.length := by
            have h1 := h.1
            subst h1
            have hs5 : (space0 r4).length ≤ r4.length :=
              List.Sublist.length_le (List.dropWhile_sublist _)
            cases hp : pchar ',' (space0 r4) with
            | none => simpa [hp] using hs5
            | some rr =>
              simp only [hp]
              have : rr.length < (space0 r4).length := by
                unfold pchar at hp
                cases hsp : space0 r4 with
                | nil => simp [hsp] at hp
                | cons x xs =>
                  rw [hsp] at hp
                  by_cases hx : x = ','
                  · simp only [hx, if_true] at hp
                    cases hp
                    simp [hsp]
                  · simp [hx] at hp
              calc (space0 rr).length ≤ rr.length :=
                    List.Sublist.length_le (List.dropWhile_sublist _)
                _ ≤ (space0 r4).length := Nat.le_of_lt this
                _ ≤ r4.length := hs5
          omega

/-- The fuel argument is irrelevant as long as it exceeds the input length. -/
theorem many1_go_irrel : ∀ f1 : Nat, ∀ i : Str, ∀ f2 : Nat,
    i.length < f1 → i.length < f2 → many1_go f1 i = many1_go f2 i := by
  intro f1
  induction f1 with
  | zero => intro i f2 h1 _; omega
  | succ f1' ih =>
    intro i f2 h1 h2
    cases f2 with
    | zero => omega
    | succ f2' =>
      show many1_go (f1' + 1) i = many1_go (f2' + 1) i
      unfold many1_go
      cases hkv : take_header_info_kv i with
      | none => rfl
      | some p =>
        obtain ⟨r, kv⟩ := p
        have hr := take_header_info_kv_length hkv
        dsimp only
        rw [ih r f2' (by omega) (by omega)]

/-- `many1_kv` satisfies exactly the `many1` recurrence of nom: one pair, then
as many further pairs as the pair parser accepts. -/
theorem many1_kv_unfold (i : Str) :
    many1_kv i =
      match take_header_info_kv i with
      | none => none
      | some (r, kv) =>
        match many1_kv r with
        | none => some (r, [kv])
        | some (r2, kvs) => some (r2, kv :: kvs) := by
  show many1_go (i.length + 1) i = _
  unfold many1_go
  cases hkv : take_header_info_kv i with
  | none => rfl
  | some p =>
    obtain ⟨r, kv⟩ := p
    have hr := take_header_info_kv_length hkv
    dsimp only
    rw [many1_go_irrel i.length r (r.length + 1) (by omega) (by omega)]
    rfl

end Plem

namespace Plem

/-- Inversion for `SUPPORTED`: the numeric keys are exactly `steps`/`repeat`. -/
theorem SUPPORTED_numeric_inv {k : Str} (h : SUPPORTED k = some ValueType.Numeric) :
    k = "steps".toList ∨ k = "repeat".toList := by
  unfold SUPPORTED at h
  split_ifs at h <;> simp_all

/-- Inversion for `SUPPORTED`: the string keys are exactly `pallet`/`extrinsic`. -/
theorem SUPPORTED_string_inv {k : Str} (h : SUPPORTED k = some ValueType.String) :
    k = "pallet".toList ∨ k = "extrinsic".toList := by
  unfold SUPPORTED at h
  split_ifs at h <;> simp_all

/-- Inversion for `SUPPORTED`: a key different from all four is unrecognized. -/
theorem SUPPORTED_eq_none {k : Str} (h1 : k ≠ "pallet".toList)
    (h2 : k ≠ "extrinsic".toList) (h3 : k ≠ "steps".toList)
    (h4 : k ≠ "repeat".toList) : SUPPORTED k = none := by
  unfold SUPPORTED
  rw [if_neg h1, if_neg h2, if_neg h3, if_neg h4]

/-- A successful `apply_kv` on key `pallet` assigned a string value. -/
theorem apply_kv_pallet {h0 h1 : HeaderInfo} {k : Str} {v : Value}
    (hk : toLowerStr k = "pallet".toList) (ha : apply_kv h0 k v = some h1) :
    ∃ s, v = Value.String s ∧ h1 = { h0 with pallet_name := s } := by
  unfold apply_kv at ha
  dsimp only at ha
  rw [hk, show SUPPORTED ("pallet".toList) = some ValueType.String from by decide] at ha
  rw [if_pos rfl] at ha
  cases v with
  | Numeric n => simp [Value.as_str] at ha
  | String s =>
    simp only [Value.as_str, Option.map_some'] at ha
    exact ⟨s, rfl, (Option.some.inj ha).symm⟩

/-- A successful `apply_kv` on key `extrinsic` assigned a string value. -/
theorem apply_kv_extrinsic {h0 h1 : HeaderInfo} {k : Str} {v : Value}
    (hk : toLowerStr k = "extrinsic".toList) (ha : apply_kv h0 k v = some h1) :
    ∃ s, v = Value.String s ∧ h1 = { h0 with extrinsic := s } := by
  unfold apply_kv at ha
  dsimp only at ha
  rw [hk, show SUPPORTED ("extrinsic".toList) = some ValueType.String from by decide] at ha
  rw [if_neg (by decide), if_pos rfl] at ha
  cases v with
  | Numeric n => simp [Value.as_str] at ha
  | String s =>
    simp only [Value.as_str, Option.map_some'] at ha
    exact ⟨s, rfl, (Option.some.inj ha).symm⟩

/-- A successful `apply_kv` on key `steps` assigned a numeric value. -/
theorem apply_kv_steps {h0 h1 : HeaderInfo} {k : Str} {v : Value}
    (hk : toLowerStr k = "steps".toList) (ha : apply_kv h0 k v = some h1) :
    ∃ n, v = Value.Numeric n ∧ h1 = { h0 with steps := n } := by
  unfold apply_kv at ha
  dsimp only at ha
  rw [hk, show SUPPORTED ("steps".toList) = some ValueType.Numeric from by decide] at ha
  rw [if_neg (by decide), if_pos rfl] at ha
  cases v with
  | String s => simp [Value.as_usize] at ha
  | Numeric n =>
    simp only [Value.as_usize, Option.map_some'] at ha
    exact ⟨n, rfl, (Option.some.inj ha).symm⟩

/-- A successful `apply_kv` on key `repeat` assigned a numeric value. -/
theorem apply_kv_repeat {h0 h1 : HeaderInfo} {k : Str} {v : Value}
    (hk : toLowerStr k = "repeat".toList) (ha : apply_kv h0 k v = some h1) :
    ∃ n, v = Value.Numeric n ∧ h1 = { h0 with «repeat» := n } := by
  unfold apply_kv at ha
  dsimp only at ha
  rw [hk, show SUPPORTED ("repeat".toList) = some ValueType.Numeric from by decide] at ha
  rw [if_pos rfl] at ha
  cases v with
  | String s => simp [Value.as_usize] at ha
  | Numeric n =>
    simp only [Value.as_usize, Option.map_some'] at ha
    exact ⟨n, rfl, (Option.some.inj ha).symm⟩

/-- `apply_kv` on an unrecognized key only warns: the record is unchanged. -/
theorem apply_kv_unknown {h0 h1 : HeaderInfo} {k : Str} {v : Value}
    (hk : SUPPORTED (toLowerStr k) = none) (ha : apply_kv h0 k v = some h1) :
    h1 = h0 := by
  unfold apply_kv at ha
  dsimp only at ha
  rw [hk] at ha
  exact (Option.some.inj ha).symm

/-- Unfolding `field_fold` one pair at a time. -/
theorem field_fold_cons {β : Type} (key : Str) (f : Value → β) (d : β)
    (kv : Str × Value) (t : List (Str × Value)) :
    field_fold key f d (kv :: t) =
      field_fold key f (if toLowerStr kv.1 = key then f kv.2 else d) t := rfl

/-- Core fold analysis: a successful `try_fold` leaves each field equal to the
left fold of its own key's occurrences, starting from the accumulator's
value — so each field only ever depends on the pairs carrying its own key. -/
theorem fold_from_fields : ∀ (l : List (Str × Value)) (h0 h : HeaderInfo),
    fold_pairs_from h0 l = some h →
    h.steps = field_fold ("steps".toList) numOf h0.steps l ∧
    h.«repeat» = field_fold ("repeat".toList) numOf h0.«repeat» l ∧
    h.pallet_name = field_fold ("pallet".toList) strOf h0.pallet_name l ∧
    h.extrinsic = field_fold ("extrinsic".toList) strOf h0.extrinsic l := by
  intro l
  induction l with
  | nil =>
    intro h0 h hf
    cases hf
    exact ⟨rfl, rfl, rfl, rfl⟩
  | cons kv t ih =>
    intro h0 h hf
    unfold fold_pairs_from at hf
    cases ha : apply_kv h0 kv.1 kv.2 with
    | none => rw [ha] at hf; simp at hf
    | some hh =>
      rw [ha] at hf
      dsimp only at hf
      obtain ⟨hs, hr, hp, he⟩ := ih hh h hf
      by_cases hk1 : toLowerStr kv.1 = "pallet".toList
      · obtain ⟨s, hv, hh1⟩ := apply_kv_pallet hk1 ha
        subst hh1
        refine ⟨?_, ?_, ?_, ?_⟩
        · rw [field_fold_cons, if_neg (show toLowerStr kv.1 ≠ "steps".toList by rw [hk1]; decide)]
          exact hs
        · rw [field_fold_cons, if_neg (show toLowerStr kv.1 ≠ "repeat".toList by rw [hk1]; decide)]
          exact hr
        · rw [field_fold_cons, if_pos hk1, hv]
          exact hp
        · rw [field_fold_cons, if_neg (show toLowerStr kv.1 ≠ "extrinsic".toList by rw [hk1]; decide)]
          exact he
      by_cases hk2 : toLowerStr kv.1 = "extrinsic".toList
      · obtain ⟨s, hv, hh1⟩ := apply_kv_extrinsic hk2 ha
        subst hh1
        refine ⟨?_, ?_, ?_, ?_⟩
        · rw [field_fold_cons, if_neg (show toLowerStr kv.1 ≠ "steps".toList by rw [hk2]; decide)]
          exact hs
        · rw [field_fold_cons, if_neg (show toLowerStr kv.1 ≠ "repeat".toList by rw [hk2]; decide)]
          exact hr
        · rw [field_fold_cons, if_neg hk1]
          exact hp
        · rw [field_fold_cons, if_pos hk2, hv]
          exact he
      by_cases hk3 : toLowerStr kv.1 = "steps".toList
      · obtain ⟨n, hv, hh1⟩ := apply_kv_steps hk3 ha
        subst hh1
        refine ⟨?_, ?_, ?_, ?_⟩
        · rw [field_fold_cons, if_pos hk3, hv]
          exact hs
        · rw [field_fold_cons, if_neg (show toLowerStr kv.1 ≠ "repeat".toList by rw [hk3]; decide)]
          exact hr
        · rw [field_fold_cons, if_neg hk1]
          exact hp
        · rw [field_fold_cons, if_neg hk2]
          exact he
      by_cases hk4 : toLowerStr kv.1 = "repeat".toList
      · obtain ⟨n, hv, hh1⟩ := apply_kv_repeat hk4 ha
        subst hh1
        refine ⟨?_, ?_, ?_, ?_⟩
        · rw [field_fold_cons, if_neg hk3]
          exact hs
        · rw [field_fold_cons, if_pos hk4, hv]
          exact hr
        · rw [field_fold_cons, if_neg hk1]
          exact hp
        · rw [field_fold_cons, if_neg hk2]
          exact he
      · have hh1 := apply_kv_unknown (SUPPORTED_eq_none hk1 hk2 hk3 hk4) ha
        subst hh1
        exact ⟨by rw [field_fold_cons, if_neg hk3]; exact hs,
               by rw [field_fold_cons, if_neg hk4]; exact hr,
               by rw [field_fold_cons, if_neg hk1]; exact hp,
               by rw [field_fold_cons, if_neg hk2]; exact he⟩

/-- A non-empty list has a last element. -/
theorem getLast?_cons_isSome {α : Type} (a : α) :
    ∀ b : List α, ∃ x, (a :: b).getLast? = some x := by
  intro b
  induction b generalizing a with
  | nil => exact ⟨a, rfl⟩
  | cons c t ih =>
    obtain ⟨x, hx⟩ := ih c
    exact ⟨x, by rw [List.getLast?_cons_cons, hx]⟩

/-- The field fold equals the projection of the last occurrence of the key,
or the start value when the key never occurs. -/
theorem field_fold_getLast {β : Type} (key : Str) (f : Value → β) :
    ∀ (l : List (Str × Value)) (d : β),
    field_fold key f d l =
      match (occ key l).getLast? with
      | none => d
      | some kv => f kv.2 := by
  intro l
  induction l with
  | nil => intro d; rfl
  | cons kv t ih =>
    intro d
    rw [field_fold_cons]
    by_cases hk : toLowerStr kv.1 = key
    · have hocc : occ key (kv :: t) = kv :: occ key t := by
        unfold occ
        rw [List.filter_cons_of_pos (by simp [hk])]
      rw [if_pos hk, hocc, ih (f kv.2)]
      cases hot : occ key t with
      | nil => rfl
      | cons a b =>
        obtain ⟨x, hx⟩ := getLast?_cons_isSome a b
        rw [List.getLast?_cons_cons, hx]
    · have hocc : occ key (kv :: t) = occ key t := by
        unfold occ
        rw [List.filter_cons_of_neg (by simp [hk])]
      rw [if_neg hk, hocc, ih d]

/-- Unfolding the `try_fold` on a cons cell. -/
theorem fold_pairs_from_cons (h0 : HeaderInfo) (kv : Str × Value)
    (t : List (Str × Value)) :
    fold_pairs_from h0 (kv :: t) =
      match apply_kv h0 kv.1 kv.2 with
      | none => none
      | some h1 => fold_pairs_from h1 t := rfl

/-- `apply_kv` with an unrecognized key always succeeds and changes nothing. -/
theorem apply_kv_none_key {h0 : HeaderInfo} {k : Str} {v : Value}
    (hk : SUPPORTED (toLowerStr k) = none) : apply_kv h0 k v = some h0 := by
  unfold apply_kv
  dsimp only
  rw [hk]

/-- Dropping the unrecognized-key pairs does not change the fold: their values
are discarded with only a warning. -/
theorem fold_filter_recognized :
    ∀ (l : List (Str × Value)) (h0 : HeaderInfo),
    fold_pairs_from h0 (l.filter (fun kv => (SUPPORTED (toLowerStr kv.1)).isSome))
      = fold_pairs_from h0 l := by
  intro l
  induction l with
  | nil => intro h0; rfl
  | cons kv t ih =>
    intro h0
    by_cases hk : (SUPPORTED (toLowerStr kv.1)).isSome
    · rw [List.filter_cons, if_pos hk, fold_pairs_from_cons, fold_pairs_from_cons]
      cases ha : apply_kv h0 kv.1 kv.2 with
      | none => rfl
      | some h1 => exact ih h1
    · rw [List.filter_cons, if_neg hk]
      have hnone : SUPPORTED (toLowerStr kv.1) = none :=
        Option.not_isSome_iff_eq_none.mp hk
      rw [ih h0, fold_pairs_from_cons, apply_kv_none_key hnone]

/-- `many1` produces at least one element. -/
theorem many1_kv_ne_nil {i r : Str} {l : List (Str × Value)}
    (h : many1_kv i = some (r, l)) : l ≠ [] := by
  rw [many1_kv_unfold] at h
  cases hkv : take_header_info_kv i with
  | none => rw [hkv] at h; cases h
  | some p =>
    obtain ⟨r1, kv⟩ := p
    rw [hkv] at h
    dsimp only at h
    cases hm : many1_kv r1 with
    | none => rw [hm] at h; cases h; simp
    | some q =>
      obtain ⟨r2, kvs⟩ := q
      rw [hm] at h
      cases h
      simp

/-- The pair list returned by the parse phase is never empty. -/
theorem parse_header_pairs_ne_nil {i rest : Str} {l : List (Str × Value)}
    (h : parse_header_pairs i = some (rest, l)) : l ≠ [] := by
  unfold parse_header_pairs at h
  cases h1 : pchar '"' i with
  | none => rw [h1] at h; cases h
  | some i1 =>
    rw [h1] at h
    dsimp only at h
    cases h2 : many1_kv (space0 i1) with
    | none => rw [h2] at h; cases h
    | some p =>
      obtain ⟨r, kvs⟩ := p
      rw [h2] at h
      dsimp only at h
      cases h3 : pchar '"' (space0 r) with
      | none => rw [h3] at h; cases h
      | some r2 =>
        rw [h3] at h
        dsimp only at h
        by_cases h4 : space0 r2 = ([] : Str)
        · rw [if_pos h4] at h
          cases h
          exact many1_kv_ne_nil h2
        · rw [if_neg h4] at h
          cases h

/-- `space0` only removes a prefix. -/
theorem space0_suffix (i : Str) : space0 i <:+ i := List.dropWhile_suffix _

/-- Successful `pchar` consumed exactly its character. -/
theorem pchar_eq {c : Char} {i r : Str} (h : pchar c i = some r) : i = c :: r := by
  unfold pchar at h
  cases i with
  | nil => cases h
  | cons x xs =>
    dsimp only at h
    by_cases hx : x = c
    · rw [if_pos hx] at h
      cases h
      rw [hx]
    · rw [if_neg hx] at h
      cases h

/-- `takeUntil` leaves a suffix of its input. -/
theorem takeUntil_suffix {c : Char} {i r t : Str}
    (h : takeUntil c i = some (r, t)) : r <:+ i := by
  unfold takeUntil at h
  by_cases hm : c ∈ i
  · rw [if_pos hm] at h
    cases h
    exact List.dropWhile_suffix _
  · rw [if_neg hm] at h
    cases h

/-- `numeric_val` leaves a suffix of its input. -/
theorem numeric_val_suffix {i r : Str} {v : Value}
    (h : numeric_val i = some (r, v)) : r <:+ i := by
  unfold numeric_val at h
  dsimp only at h
  cases hf : fromStrRadix10 ((space0 i).takeWhile isDigitCast) with
  | none => rw [hf] at h; cases h
  | some n =>
    rw [hf] at h
    cases h
    exact ((List.dropWhile_suffix _).trans
      ((List.dropWhile_suffix _).trans (space0_suffix i)))

/-- `string_val` leaves a suffix of its input. -/
theorem string_val_suffix {i r : Str} {v : Value}
    (h : string_val i = some (r, v)) : r <:+ i := by
  unfold string_val at h
  cases ht : takeUntil ',' i with
  | none => rw [ht] at h; cases h
  | some p =>
    obtain ⟨rest, slice⟩ := p
    rw [ht] at h
    dsimp only at h
    cases hu : unquote_val slice with
    | none => rw [hu] at h; cases h
    | some q =>
      obtain ⟨lft, str⟩ := q
      rw [hu] at h
      cases h
      exact takeUntil_suffix ht

/-- A successful key/value pair leaves a suffix of its input. -/
theorem take_header_info_kv_suffix {i r : Str} {kv : Str × Value}
    (h : take_header_info_kv i = some (r, kv)) : r <:+ i := by
  unfold take_header_info_kv at h
  by_cases hi : i = []
  · rw [if_pos hi] at h; cases h
  · rw [if_neg hi] at h
    cases htu : takeUntil ':' i with
    | none => rw [htu] at h; cases h
    | some p =>
      obtain ⟨r1, k⟩ := p
      rw [htu] at h
      dsimp only at h
      cases hc : pchar ':' r1 with
      | none => rw [hc] at h; cases h
      | some r2 =>
        rw [hc] at h
        dsimp only at h
        have hr2 : r2 <:+ i := by
          have h1 : r1 <:+ i := takeUntil_suffix htu
          have h2 : r2 <:+ r1 := by
            rw [pchar_eq hc]
            exact List.suffix_cons ':' r2
          exact h2.trans h1
        cases hv : (match numeric_val (space0 r2) with
                    | some x => some x
                    | none => string_val (space0 r2)) with
        | none => rw [hv] at h; cases h
        | some p2 =>
          obtain ⟨r4, v⟩ := p2
          rw [hv] at h
          dsimp only at h
          have hr4 : r4 <:+ i := by
            have : r4 <:+ space0 r2 := by
              cases hn : numeric_val (space0 r2) with
              | some x =>
                rw [hn] at hv
                cases hv
                exact numeric_val_suffix hn
              | none =>
                rw [hn] at hv
                exact string_val_suffix hv
            exact this.trans ((space0_suffix r2).trans hr2)
          cases h
          cases hp : pchar ',' (space0 r4) with
          | none =>
            dsimp only
            exact (space0_suffix r4).trans hr4
          | some rr =>
            dsimp only
            have h5 : rr <:+ space0 r4 := by
              rw [pchar_eq hp]
              exact List.suffix_cons ',' rr
            exact (space0_suffix rr).trans
              ((h5.trans (space0_suffix r4)).trans hr4)

/-- `many1` leaves a suffix of its input. -/
theorem many1_go_suffix : ∀ (fuel : Nat) (i r : Str) (l : List (Str × Value)),
    many1_go fuel i = some (r, l) → r <:+ i := by
  intro fuel
  induction fuel with
  | zero => intro i r l h; cases h
  | succ f ih =>
    intro i r l h
    unfold many1_go at h
    cases hkv : take_header_info_kv i with
    | none => rw [hkv] at h; cases h
    | some p =>
      obtain ⟨r1, kv⟩ := p
      rw [hkv] at h
      dsimp only at h
      cases hm : many1_go f r1 with
      | none =>
        rw [hm] at h
        cases h
        exact take_header_info_kv_suffix hkv
      | some q =>
        obtain ⟨r2, kvs⟩ := q
        rw [hm] at h
        cases h
        exact (ih r1 _ _ hm).trans (take_header_info_kv_suffix hkv)

/-- Structure of every accepted parse phase: the remainder is empty and the
input ends with the closing quote followed only by spaces/tabs. -/
theorem parse_header_pairs_structure {i rest : Str} {l : List (Str × Value)}
    (h : parse_header_pairs i = some (rest, l)) :
    rest = [] ∧ ends_quote_spaces i = true := by
  unfold parse_header_pairs at h
  cases h1 : pchar '"' i with
  | none => rw [h1] at h; cases h
  | some i1 =>
    rw [h1] at h
    dsimp only at h
    cases h2 : many1_kv (space0 i1) with
    | none => rw [h2] at h; cases h
    | some p =>
      obtain ⟨r, kvs⟩ := p
      rw [h2] at h
      dsimp only at h
      cases h3 : pchar '"' (space0 r) with
      | none => rw [h3] at h; cases h
      | some r2 =>
        rw [h3] at h
        dsimp only at h
        by_cases h4 : space0 r2 = ([] : Str)
        · rw [if_pos h4] at h
          cases h
          refine ⟨h4, ?_⟩
          have hsp : ∀ c ∈ r2, isSpaceTab c = true := by
            rw [← List.dropWhile_eq_nil_iff]
            exact h4
          have hqr : ('"' :: r2) <:+ i := by
            have hq : ('"' :: r2) <:+ r := by
              rw [← pchar_eq h3]
              exact space0_suffix r
            have hr : r <:+ space0 i1 :=
              many1_go_suffix _ _ _ _ h2
            have : ('"' :: r2) <:+ i1 :=
              (hq.trans hr).trans (space0_suffix i1)
            rw [pchar_eq h1]
            exact this.trans (List.suffix_cons '"' i1)
          obtain ⟨pre, hpre⟩ := hqr
          unfold ends_quote_spaces
          rw [← hpre]
          rw [List.reverse_append, List.reverse_cons, List.append_assoc]
          rw [List.dropWhile_append]
          have hrev : r2.reverse.dropWhile isSpaceTab = [] := by
            rw [List.dropWhile_eq_nil_iff]
            intro x hx
            exact hsp x (List.mem_reverse.mp hx)
          rw [hrev]
          have hq2 : isSpaceTab '"' = false := by decide
          simp [List.dropWhile_cons, hq2]
        · rw [if_neg h4] at h
          cases h

/-- `takeWhile` passes over a block that satisfies the predicate. -/
theorem takeWhile_append_all {α : Type} (p : α → Bool) :
    ∀ (a b : List α), (∀ x ∈ a, p x = true) →
    (a ++ b).takeWhile p = a ++ b.takeWhile p := by
  intro a
  induction a with
  | nil => intro b _; rfl
  | cons x t ih =>
    intro b h
    rw [List.cons_append, List.takeWhile_cons, h x (by simp),
        ih b (fun y hy => h y (by simp [hy]))]
    rfl

/-- `dropWhile` passes over a block that satisfies the predicate. -/
theorem dropWhile_append_all {α : Type} (p : α → Bool) :
    ∀ (a b : List α), (∀ x ∈ a, p x = true) →
    (a ++ b).dropWhile p = b.dropWhile p := by
  intro a
  induction a with
  | nil => intro b _; rfl
  | cons x t ih =>
    intro b h
    rw [List.cons_append, List.dropWhile_cons, h x (by simp),
        ih b (fun y hy => h y (by simp [hy]))]
    rfl

/-- Folding digits from an arbitrary accumulator. -/
theorem digitsToNat_foldl (b : Str) : ∀ a0 : Nat,
    b.foldl (fun a c => a * 10 + (c.toNat - 48)) a0
      = a0 * 10 ^ b.length + digitsToNat b := by
  induction b with
  | nil => intro a0; simp [digitsToNat]
  | cons c t ih =>
    intro a0
    rw [List.foldl_cons, ih (a0 * 10 + (c.toNat - 48))]
    unfold digitsToNat
    rw [List.foldl_cons, ih (0 * 10 + (c.toNat - 48))]
    simp only [List.length_cons]
    rw [show digitsToNat t
          = t.foldl (fun a c => a * 10 + (c.toNat - 48)) 0 from rfl]
    ring

/-- Value of a concatenated digit string. -/
theorem digitsToNat_append (a b : Str) :
    digitsToNat (a ++ b) = digitsToNat a * 10 ^ b.length + digitsToNat b := by
  unfold digitsToNat
  rw [List.foldl_append, digitsToNat_foldl b]
  rfl

/-- An ASCII digit is not a space or tab. -/
theorem digit_not_space {c : Char} (h : isAsciiDigit c = true) :
    isSpaceTab c = false := by
  unfold isAsciiDigit at h
  simp only [Bool.and_eq_true, decide_eq_true_eq] at h
  unfold isSpaceTab
  simp only [Bool.or_eq_false_iff, decide_eq_false_iff_not]
  constructor
  · intro hc
    rw [hc] at h
    exact absurd h (by decide)
  · intro hc
    rw [hc] at h
    exact absurd h (by decide)

/-- An ASCII digit satisfies the truncating `is_digit(x as u8)` test. -/
theorem digit_isDigitCast {c : Char} (h : isAsciiDigit c = true) :
    isDigitCast c = true := by
  unfold isAsciiDigit at h
  simp only [Bool.and_eq_true, decide_eq_true_eq] at h
  unfold isDigitCast
  rw [Nat.mod_eq_of_lt (by omega)]
  simp only [Bool.and_eq_true, decide_eq_true_eq]
  omega

/-- An ASCII digit is neither a double quote nor a comma nor a colon. -/
theorem digit_ne_punct {c : Char} (h : isAsciiDigit c = true) :
    c ≠ '"' ∧ c ≠ ',' ∧ c ≠ ':' := by
  unfold isAsciiDigit at h
  simp only [Bool.and_eq_true, decide_eq_true_eq] at h
  refine ⟨?_, ?_, ?_⟩ <;> intro hc <;> rw [hc] at h <;> exact absurd h (by decide)

/-- `space0` does not touch an input starting with an ASCII digit. -/
theorem space0_digit_head {d : Char} {tl : Str} (h : isAsciiDigit d = true) :
    space0 (d :: tl) = d :: tl := by
  unfold space0
  rw [List.dropWhile_cons, digit_not_space h]
  rfl

/-- `numeric_val` on a digit run that overflows 64 bits is a parse error, no
matter what follows the run. -/
theorem numeric_val_overflow {ds rest : Str} (h1 : ds ≠ [])
    (h2 : ∀ c ∈ ds, isAsciiDigit c = true) (h3 : 2 ^ 64 ≤ digitsToNat ds) :
    numeric_val (ds ++ rest) = none := by
  obtain ⟨d, ds', rfl⟩ : ∃ d ds', ds = d :: ds' := by
    cases ds with
    | nil => exact absurd rfl h1
    | cons d ds' => exact ⟨d, ds', rfl⟩
  unfold numeric_val
  dsimp only
  rw [List.cons_append, space0_digit_head (h2 d (by simp)),
      ← List.cons_append,
      takeWhile_append_all isDigitCast (d :: ds') rest
        (fun x hx => digit_isDigitCast (h2 x hx))]
  have hnone : fromStrRadix10 ((d :: ds') ++ rest.takeWhile isDigitCast) = none := by
    unfold fromStrRadix10
    rw [if_neg]
    intro hcon
    obtain ⟨_, _, hlt⟩ := hcon
    rw [digitsToNat_append] at hlt
    have h10 : 1 ≤ 10 ^ (rest.takeWhile isDigitCast).length :=
      Nat.one_le_pow _ _ (by omega)
    have : 2 ^ 64 ≤ digitsToNat (d :: ds') * 10 ^ (rest.takeWhile isDigitCast).length :=
      le_trans h3 (Nat.le_mul_of_pos_right _ (by omega))
    omega
  rw [hnone]

/-- `unquote_val` fails unless the input opens with a double quote. -/
theorem unquote_val_nonquote {d : Char} {tl : Str} (hd : d ≠ '"') :
    unquote_val (d :: tl) = none := by
  unfold unquote_val pchar
  dsimp only
  rw [if_neg hd]

/-- `string_val` fails on an input starting with an ASCII digit: the value
slice cannot open with a double quote. -/
theorem string_val_digit_head {d : Char} {tl : Str} (hd : isAsciiDigit d = true) :
    string_val (d :: tl) = none := by
  unfold string_val
  by_cases hm : ',' ∈ d :: tl
  · rw [show takeUntil ',' (d :: tl)
          = some ((d :: tl).dropWhile (fun x => x ≠ ','),
                  (d :: tl).takeWhile (fun x => x ≠ ',')) from by
        unfold takeUntil
        rw [if_pos hm]]
    dsimp only
    rw [List.takeWhile_cons,
        show (decide ¬(d = ',')) = true from by simp [(digit_ne_punct hd).2.1]]
    rw [show (if true = true
          then d :: List.takeWhile (fun x => decide ¬(x = ',')) tl
          else []) = d :: List.takeWhile (fun x => decide ¬(x = ',')) tl from rfl]
    rw [unquote_val_nonquote (digit_ne_punct hd).1]
  · rw [show takeUntil ',' (d :: tl) = none from by
        unfold takeUntil
        rw [if_neg hm]]

/-- `takeUntil` at the first occurrence of the separator. -/
theorem takeUntil_exact {c : Char} {a b : Str} (h : c ∉ a) :
    takeUntil c (a ++ c :: b) = some (c :: b, a) := by
  unfold takeUntil
  rw [if_pos (by simp)]
  have hall : ∀ x ∈ a, (fun x => decide ¬(x = c)) x = true := by
    intro x hx
    simp only [decide_eq_true_eq]
    intro hxc
    exact h (hxc ▸ hx)
  rw [dropWhile_append_all _ a (c :: b) hall,
      takeWhile_append_all _ a (c :: b) hall,
      List.dropWhile_cons, List.takeWhile_cons]
  simp

/-- A key/value pair whose value position holds an overflowing digit run is
rejected: `numeric_val` overflows and the `string_val` fallback cannot start
at a digit. -/
theorem take_header_info_kv_overflow {k ds rest : Str} (hk : ':' ∉ k)
    (h1 : ds ≠ []) (h2 : ∀ c ∈ ds, isAsciiDigit c = true)
    (h3 : 2 ^ 64 ≤ digitsToNat ds) :
    take_header_info_kv (k ++ ':' :: (ds ++ rest)) = none := by
  obtain ⟨d, ds', rfl⟩ : ∃ d ds', ds = d :: ds' := by
    cases ds with
    | nil => exact absurd rfl h1
    | cons d ds' => exact ⟨d, ds', rfl⟩
  unfold take_header_info_kv
  rw [if_neg (by simp)]
  rw [takeUntil_exact hk]
  dsimp only
  rw [show pchar ':' (':' :: ((d :: ds') ++ rest)) = some ((d :: ds') ++ rest)
        from by unfold pchar; dsimp only; rw [if_pos rfl]]
  dsimp only
  rw [show space0 ((d :: ds') ++ rest) = (d :: ds') ++ rest from by
        rw [List.cons_append]
        exact space0_digit_head (h2 d (by simp))]
  rw [numeric_val_overflow h1 h2 h3]
  dsimp only
  rw [List.cons_append, string_val_digit_head (h2 d (by simp))]

/-- `numeric_val` on a digit run followed by a non-digit, non-space character
succeeds with exactly the digit prefix as the value, leaving that character
and everything after it unconsumed. -/
theorem numeric_val_digit_run :
    ∀ (ds rest : Str) (c : Char), ds ≠ [] →
    (∀ d ∈ ds, isAsciiDigit d = true) → digitsToNat ds < 2 ^ 64 →
    isDigitCast c = false → isSpaceTab c = false →
    numeric_val (ds ++ c :: rest)
      = some (c :: rest, Value.Numeric (digitsToNat ds)) := by
  intro ds rest c hne hall hlt hcast hsp
  obtain ⟨d, ds', rfl⟩ : ∃ d ds', ds = d :: ds' := by
    cases ds with
    | nil => exact absurd rfl hne
    | cons d ds' => exact ⟨d, ds', rfl⟩
  unfold numeric_val
  dsimp only
  rw [List.cons_append, space0_digit_head (hall d (by simp)), ← List.cons_append]
  rw [takeWhile_append_all isDigitCast (d :: ds') (c :: rest)
        (fun x hx => digit_isDigitCast (hall x hx)),
      dropWhile_append_all isDigitCast (d :: ds') (c :: rest)
        (fun x hx => digit_isDigitCast (hall x hx)),
      show List.takeWhile isDigitCast (c :: rest) = [] from by
        rw [List.takeWhile_cons, hcast]; rfl,
      show List.dropWhile isDigitCast (c :: rest) = c :: rest from by
        rw [List.dropWhile_cons, hcast]; rfl]
  rw [show fromStrRadix10 ((d :: ds') ++ [])
        = some (digitsToNat ((d :: ds') ++ [])) from by
      unfold fromStrRadix10
      rw [if_pos]
      refine ⟨by simp, ?_, ?_⟩
      · intro x hx
        exact hall x (by simpa using hx)
      · rw [List.append_nil]
        exact hlt]
  rw [show space0 (c :: rest) = c :: rest from by
      unfold space0
      rw [List.dropWhile_cons, hsp]
      rfl]
  rw [List.append_nil]

/-- `space0` does not touch an input whose head is not a space. -/
theorem space0_id {x : Str} (h : headNotSpace x) : space0 x = x := by
  cases x with
  | nil => rfl
  | cons c t =>
    unfold space0
    rw [List.dropWhile_cons, h c rfl]
    rfl

/-- The head of a non-empty list prefix rules an appended list too. -/
theorem headNotSpace_append {a : Str} (b : Str) (hne : a ≠ [])
    (h : headNotSpace a) : headNotSpace (a ++ b) := by
  cases a with
  | nil => exact absurd rfl hne
  | cons c t =>
    intro x hx
    rw [List.cons_append] at hx
    cases hx
    exact h c rfl

/-- `numeric_val` fails on an input starting with a non-digit, non-space
character (no digits can be scanned). -/
theorem numeric_val_nondigit_head {d : Char} {tl : Str}
    (h1 : isDigitCast d = false) (h2 : isSpaceTab d = false) :
    numeric_val (d :: tl) = none := by
  unfold numeric_val
  dsimp only
  rw [show space0 (d :: tl) = d :: tl from by
        unfold space0
        rw [List.dropWhile_cons, h2]
        rfl,
      List.takeWhile_cons, h1]
  rfl

/-- `takeUntil` at the first occurrence, stated with an explicit input
decomposition so it applies whatever associativity the term is in. -/
theorem takeUntil_first {c : Char} {i r t : Str} (hd : i = t ++ c :: r)
    (h : c ∉ t) : takeUntil c i = some (c :: r, t) := by
  subst hd
  exact takeUntil_exact h

/-- Appending the closing quote preserves a non-space head. -/
theorem headNotSpace_quote {sv : Str} (hh : headNotSpace sv) :
    headNotSpace (sv ++ ['"']) := by
  cases sv with
  | nil =>
    intro c hc
    simp only [List.nil_append, List.head?_cons, Option.some.injEq] at hc
    rw [← hc]
    decide
  | cons c0 t0 => exact headNotSpace_append _ (by simp) hh

/-- `apply_kv` succeeds whenever the value's container matches the type the
recognized-key table expects. -/
theorem apply_kv_total (h0 : HeaderInfo) (k : Str) (v : Value)
    (ht : typeOk (k, v)) : ∃ h1, apply_kv h0 k v = some h1 := by
  unfold typeOk at ht
  dsimp only at ht
  cases hSup : SUPPORTED (toLowerStr k) with
  | none => exact ⟨h0, apply_kv_none_key hSup⟩
  | some vt =>
    rw [hSup] at ht
    cases vt with
    | Numeric =>
      obtain ⟨n, hv⟩ := ht
      subst hv
      rcases SUPPORTED_numeric_inv hSup with hk | hk
      · refine ⟨{ h0 with steps := n }, ?_⟩
        unfold apply_kv
        dsimp only
        rw [hSup, hk]
        rw [if_neg (by decide), if_pos rfl]
        rfl
      · refine ⟨{ h0 with «repeat» := n }, ?_⟩
        unfold apply_kv
        dsimp only
        rw [hSup, hk]
        rw [if_pos rfl]
        rfl
    | String =>
      obtain ⟨sv, hv⟩ := ht
      subst hv
      rcases SUPPORTED_string_inv hSup with hk | hk
      · refine ⟨{ h0 with pallet_name := sv }, ?_⟩
        unfold apply_kv
        dsimp only
        rw [hSup, hk]
        rw [if_pos rfl]
        rfl
      · refine ⟨{ h0 with extrinsic := sv }, ?_⟩
        unfold apply_kv
        dsimp only
        rw [hSup, hk]
        rw [if_neg (by decide), if_pos rfl]
        rfl

/-- The `try_fold` never traps when every pair is well-typed for its key. -/
theorem fold_from_total : ∀ (l : List (Str × Value)) (h0 : HeaderInfo),
    (∀ kv ∈ l, typeOk kv) → ∃ h, fold_pairs_from h0 l = some h := by
  intro l
  induction l with
  | nil => intro h0 _; exact ⟨h0, rfl⟩
  | cons kv t ih =>
    intro h0 ht
    obtain ⟨h1, hh1⟩ := apply_kv_total h0 kv.1 kv.2 (by
      have := ht kv (by simp)
      exact this)
    obtain ⟨h, hh⟩ := ih h1 (fun x hx => ht x (by simp [hx]))
    refine ⟨h, ?_⟩
    rw [fold_pairs_from_cons, hh1]
    exact hh

/-- The head of a literal is enough to establish a non-space head. -/
theorem headNotSpace_lit {x : Str} {c0 : Char} (h : x.head? = some c0)
    (hc0 : isSpaceTab c0 = false) : headNotSpace x := by
  intro c hc
  rw [h] at hc
  have hcc := Option.some.inj hc
  subst hcc
  exact hc0

/-- `Char.toLower` moves nothing outside the ASCII uppercase range. -/
theorem toLower_eq_self_of_not_upper {c : Char}
    (h : ¬(65 ≤ c.toNat ∧ c.toNat ≤ 90)) : Char.toLower c = c := by
  unfold Char.toLower
  dsimp only
  rw [if_neg h]

/-- A space or tab is none of the delimiter characters and not a digit. -/
theorem space_facts {x : Char} (h : isSpaceTab x = true) :
    x ≠ ',' ∧ x ≠ ':' ∧ x ≠ '"' ∧ isDigitCast x = false := by
  unfold isSpaceTab at h
  simp only [Bool.or_eq_true, decide_eq_true_eq] at h
  rcases h with h | h <;> subst h <;>
    exact ⟨by decide, by decide, by decide, by decide⟩

/-- The head conditions transfer backwards through `Char.toLower`. -/
theorem headGood_of_toLower_head {c q : Char} (h : Char.toLower c = q)
    (hq1 : isSpaceTab q = false) (hq2 : q ≠ ',') (hq3 : isDigitCast q = false) :
    isSpaceTab c = false ∧ c ≠ ',' ∧ isDigitCast c = false := by
  by_cases hAZ : 65 ≤ c.toNat ∧ c.toNat ≤ 90
  · refine ⟨?_, ?_, ?_⟩
    · unfold isSpaceTab
      simp only [Bool.or_eq_false_iff, decide_eq_false_iff_not]
      constructor <;> intro hc <;> rw [hc] at hAZ <;> revert hAZ <;> decide
    · intro hc
      rw [hc] at hAZ
      revert hAZ
      decide
    · unfold isDigitCast
      rw [Nat.mod_eq_of_lt (by omega)]
      have h2 : ¬ (c.toNat ≤ 57) := by omega
      simp [h2]
  · rw [toLower_eq_self_of_not_upper hAZ] at h
    subst h
    exact ⟨hq1, hq2, hq3⟩

/-- A key whose Unicode-lowercased spelling starts like a recognized key is
well formed. -/
theorem wf_key_of_lower {k t : Str} (h : toLowerStr k = t) (h1 : ':' ∉ t)
    (h2 : ∀ c, t.head? = some c →
       isSpaceTab c = false ∧ c ≠ ',' ∧ isDigitCast c = false) :
    wf_key k := by
  constructor
  · intro hc
    apply h1
    rw [← h]
    have hmem := List.mem_map_of_mem Char.toLower hc
    rw [show Char.toLower ':' = ':' from by decide] at hmem
    exact hmem
  · intro c hc
    cases k with
    | nil => cases hc
    | cons c0 t0 =>
      simp only [List.head?_cons, Option.some.injEq] at hc
      rw [← hc]
      have hhd : t.head? = some (Char.toLower c0) := by
        rw [← h]
        rfl
      obtain ⟨hb1, hb2, hb3⟩ := h2 (Char.toLower c0) hhd
      exact headGood_of_toLower_head rfl hb1 hb2 hb3

/-- The head conditions at a literal head. -/
theorem headGood_lit {x : Str} {c0 : Char} (h : x.head? = some c0)
    (h1 : isSpaceTab c0 = false) (h2 : c0 ≠ ',') (h3 : isDigitCast c0 = false) :
    ∀ c, x.head? = some c →
      isSpaceTab c = false ∧ c ≠ ',' ∧ isDigitCast c = false := by
  intro c hc
  rw [h] at hc
  have hcc := Option.some.inj hc
  subst hcc
  exact ⟨h1, h2, h3⟩

/-- `space0` consumes exactly a leading whitespace run. -/
theorem space0_spaces {w x : Str} (hw : allSpace w) (hx : headNotSpace x) :
    space0 (w ++ x) = x := by
  induction w with
  | nil => exact space0_id hx
  | cons c t ih =>
    show space0 (c :: (t ++ x)) = x
    unfold space0
    rw [List.dropWhile_cons, hw c (by simp)]
    exact ih (fun y hy => hw y (by simp [hy]))

/-- `takeWhile`/`dropWhile` stop immediately at a non-matching head. -/
theorem takeWhile_head_stop {α : Type} {p : α → Bool} {l : List α}
    (h : ∀ c, l.head? = some c → p c = false) :
    l.takeWhile p = [] ∧ l.dropWhile p = l := by
  cases l with
  | nil => exact ⟨rfl, rfl⟩
  | cons c t =>
    rw [List.takeWhile_cons, List.dropWhile_cons, h c rfl]
    exact ⟨rfl, rfl⟩

/-- A non-empty digit run gives a non-space head, whatever follows. -/
theorem headNotSpace_digits {ds : Str} (h1 : ds ≠ [])
    (h2 : ∀ c ∈ ds, isAsciiDigit c = true) (x : Str) :
    headNotSpace (ds ++ x) := by
  cases ds with
  | nil => exact absurd rfl h1
  | cons d t =>
    intro c hc
    simp only [List.cons_append, List.head?_cons, Option.some.injEq] at hc
    rw [← hc]
    exact digit_not_space (h2 d (by simp))

/-- `numeric_val` on a digit run, optional trailing whitespace, and a stopper
character that is neither digit nor space: it consumes the run and the
whitespace and yields exactly the run's value. -/
theorem numeric_val_spaces {ds u rest : Str} {c : Char} (h1 : ds ≠ [])
    (h2 : ∀ x ∈ ds, isAsciiDigit x = true) (h3 : digitsToNat ds < 2 ^ 64)
    (hu : allSpace u) (hc1 : isDigitCast c = false) (hc2 : isSpaceTab c = false) :
    numeric_val (ds ++ (u ++ c :: rest))
      = some (c :: rest, Value.Numeric (digitsToNat ds)) := by
  have hstop : ∀ x, (u ++ c :: rest).head? = some x → isDigitCast x = false := by
    intro x hx
    cases u with
    | nil =>
      simp only [List.nil_append, List.head?_cons, Option.some.injEq] at hx
      rw [← hx]
      exact hc1
    | cons w0 wt =>
      simp only [List.cons_append, List.head?_cons, Option.some.injEq] at hx
      rw [← hx]
      exact (space_facts (hu w0 (by simp))).2.2.2
  obtain ⟨htk, hdr⟩ := takeWhile_head_stop hstop
  unfold numeric_val
  dsimp only
  rw [space0_id (headNotSpace_digits h1 h2 _)]
  rw [takeWhile_append_all isDigitCast ds (u ++ c :: rest)
        (fun x hx => digit_isDigitCast (h2 x hx)),
      dropWhile_append_all isDigitCast ds (u ++ c :: rest)
        (fun x hx => digit_isDigitCast (h2 x hx)),
      htk, hdr, List.append_nil]
  rw [show fromStrRadix10 ds = some (digitsToNat ds) from by
      unfold fromStrRadix10
      rw [if_pos ⟨h1, h2, h3⟩]]
  rw [show space0 (u ++ c :: rest) = c :: rest from
      space0_spaces hu (fun x hx => by
        simp only [List.head?_cons, Option.some.injEq] at hx
        rw [← hx]
        exact hc2)]

/-- `string_val` on a rendered quoted value, optional whitespace, then the
separator comma: it returns the value and stops at the comma. -/
theorem string_val_spaces {sv s rest' : Str} (hq : '"' ∉ sv) (hc : ',' ∉ sv)
    (hh : headNotSpace sv) (hs : allSpace s) :
    string_val ('"' :: (sv ++ ('"' :: (s ++ ',' :: rest'))))
      = some (',' :: rest', Value.String sv) := by
  unfold string_val
  rw [takeUntil_first
        (show ('"' :: (sv ++ ('"' :: (s ++ ',' :: rest'))))
            = ('"' :: (sv ++ '"' :: s)) ++ ',' :: rest' from by simp)
        (by
          intro hmem
          rcases List.mem_cons.mp hmem with hm1 | hm2
          · exact absurd hm1 (by decide)
          · rcases List.mem_append.mp hm2 with hm3 | hm4
            · exact hc hm3
            · rcases List.mem_cons.mp hm4 with hm5 | hm6
              · exact absurd hm5 (by decide)
              · exact absurd rfl (space_facts (hs ',' hm6)).1)]
  dsimp only
  rw [show unquote_val ('"' :: (sv ++ '"' :: s)) = some (space0 s, sv) from by
        unfold unquote_val
        rw [show pchar '"' ('"' :: (sv ++ '"' :: s)) = some (sv ++ '"' :: s)
              from by unfold pchar; dsimp only; rw [if_pos rfl]]
        dsimp only
        rw [show space0 (sv ++ '"' :: s) = sv ++ '"' :: s from
            space0_id (by
              cases sv with
              | nil =>
                intro x hx
                simp only [List.nil_append, List.head?_cons,
                  Option.some.injEq] at hx
                rw [← hx]
                decide
              | cons c0 t0 => exact headNotSpace_append _ (by simp) hh)]
        rw [takeUntil_first (show sv ++ '"' :: s = sv ++ '"' :: s from rfl) hq]
        dsimp only
        rw [show pchar '"' ('"' :: s) = some s from by
              unfold pchar; dsimp only; rw [if_pos rfl]]]

/-- A rendered pair is never empty. -/
theorem render_rpair_ne_nil (p : RPair) : render_rpair p ≠ [] := by
  unfold render_rpair
  simp

/-- A rendered sequence is never empty. -/
theorem render_seq_ne_nil (ps : List (RPair × RSep)) (q : RPair) :
    render_seq ps q ≠ [] := by
  cases ps with
  | nil => exact render_rpair_ne_nil q
  | cons e rest =>
    obtain ⟨p, sep⟩ := e
    unfold render_seq
    simp [render_rpair_ne_nil]

/-- A rendered pair (with anything appended) starts with the key's first
character, or with the colon of an empty key: a good head either way. -/
theorem headGood_rpair (p : RPair) (x : Str) (h : wf_key p.key) :
    headGood (render_rpair p ++ x) := by
  intro c hc
  unfold render_rpair at hc
  cases hk : p.key with
  | nil =>
    rw [hk] at hc
    simp only [List.nil_append, List.cons_append, List.head?_cons,
      Option.some.injEq] at hc
    rw [← hc]
    exact ⟨by decide, by decide, by decide⟩
  | cons c0 t0 =>
    rw [hk] at hc
    simp only [List.cons_append, List.append_assoc, List.head?_cons,
      Option.some.injEq] at hc
    rw [← hc]
    exact h.2 c0 (by rw [hk]; rfl)

/-- A rendered sequence (with anything appended) has a good head. -/
theorem headGood_render_seq (ps : List (RPair × RSep)) (q : RPair) (x : Str)
    (hps : ∀ e ∈ ps, wf_key e.1.key) (hq : wf_key q.key) :
    headGood (render_seq ps q ++ x) := by
  cases ps with
  | nil => exact headGood_rpair q x hq
  | cons e rest =>
    obtain ⟨p, sep⟩ := e
    rw [show render_seq ((p, sep) :: rest) q ++ x
          = render_rpair p ++ ((render_sep sep ++ render_seq rest q) ++ x)
          from by simp [render_seq]]
    exact headGood_rpair p _ (hps (p, sep) (by simp))

/-- The pair parser fails at the closing quote (no colon remains). -/
theorem kv_at_quote {w6 : Str} (hw6 : allSpace w6) :
    take_header_info_kv ('"' :: w6) = none := by
  unfold take_header_info_kv
  rw [if_neg (by simp)]
  rw [show takeUntil ':' ('"' :: w6) = none from by
      unfold takeUntil
      rw [if_neg ?hmem]
      case hmem =>
        intro hm
        rcases List.mem_cons.mp hm with hm1 | hm2
        · exact absurd hm1 (by decide)
        · exact absurd rfl (space_facts (hw6 ':' hm2)).2.1]

/-- `many1` stops cleanly at the closing quote. -/
theorem many1_at_quote {w6 : Str} (hw6 : allSpace w6) :
    many1_kv ('"' :: w6) = none := by
  rw [many1_kv_unfold, kv_at_quote hw6]

/-- The final (numeric) pair, with trailing whitespace, parses to its key and
value, leaving exactly the closing quote and its trailing whitespace. -/
theorem kv_render_last {q : RPair} {w5 w6 : Str} (hwk : wf_key q.key)
    (hwc : allSpace q.wc) {dq : Str} (hval : q.val = RVal.num dq)
    (h1 : dq ≠ []) (h2 : ∀ x ∈ dq, isAsciiDigit x = true)
    (h3 : digitsToNat dq < 2 ^ 64) (hw5 : allSpace w5) :
    take_header_info_kv (render_rpair q ++ (w5 ++ '"' :: w6))
      = some ('"' :: w6, ab2 q) := by
  obtain ⟨k, wc, v⟩ := q
  dsimp only at hval hwc hwk ⊢
  subst hval
  unfold render_rpair render_rval ab2 rval_value
  dsimp only
  unfold take_header_info_kv
  rw [if_neg (by simp)]
  rw [takeUntil_first
        (show (k ++ ':' :: (wc ++ dq)) ++ (w5 ++ '"' :: w6)
            = k ++ ':' :: (wc ++ (dq ++ (w5 ++ '"' :: w6))) from by simp)
        hwk.1]
  dsimp only
  rw [show pchar ':' (':' :: (wc ++ (dq ++ (w5 ++ '"' :: w6))))
        = some (wc ++ (dq ++ (w5 ++ '"' :: w6))) from by
      unfold pchar; dsimp only; rw [if_pos rfl]]
  dsimp only
  rw [space0_spaces hwc (headNotSpace_digits h1 h2 _)]
  rw [numeric_val_spaces h1 h2 h3 hw5 (by decide) (by decide)]
  dsimp only
  rw [show space0 ('"' :: w6) = '"' :: w6 from by
      unfold space0
      rw [List.dropWhile_cons]
      rfl]
  rw [show pchar ',' ('"' :: w6) = none from by
      unfold pchar; dsimp only; rw [if_neg (by decide)]]

/-- A pair followed by a comma separator parses to its key and value and
consumes the separator and its whitespace. -/
theorem kv_render_comma {p : RPair} {s t rest : Str} (hwk : wf_key p.key)
    (hwc : allSpace p.wc) (hv : wf_rval p.val) (hs : allSpace s)
    (ht : allSpace t) (hrest : headNotSpace rest) :
    take_header_info_kv (render_rpair p ++ (render_sep (RSep.comma s t) ++ rest))
      = some (rest, ab2 p) := by
  obtain ⟨k, wc, v⟩ := p
  dsimp only at hwc hwk hv ⊢
  cases v with
  | num ds =>
    obtain ⟨h1, h2, h3⟩ := hv
    unfold render_rpair render_rval render_sep ab2 rval_value
    dsimp only
    unfold take_header_info_kv
    rw [if_neg (by simp)]
    rw [takeUntil_first
          (show (k ++ ':' :: (wc ++ ds)) ++ ((s ++ ',' :: t) ++ rest)
              = k ++ ':' :: (wc ++ (ds ++ (s ++ ',' :: (t ++ rest))))
              from by simp)
          hwk.1]
    dsimp only
    rw [show pchar ':' (':' :: (wc ++ (ds ++ (s ++ ',' :: (t ++ rest)))))
          = some (wc ++ (ds ++ (s ++ ',' :: (t ++ rest)))) from by
        unfold pchar; dsimp only; rw [if_pos rfl]]
    dsimp only
    rw [space0_spaces hwc (headNotSpace_digits h1 h2 _)]
    rw [numeric_val_spaces h1 h2 h3 hs (by decide) (by decide)]
    dsimp only
    rw [show space0 (',' :: (t ++ rest)) = ',' :: (t ++ rest) from by
        unfold space0
        rw [List.dropWhile_cons]
        rfl]
    rw [show pchar ',' (',' :: (t ++ rest)) = some (t ++ rest) from by
        unfold pchar; dsimp only; rw [if_pos rfl]]
    dsimp only
    rw [space0_spaces ht hrest]
  | str sv =>
    obtain ⟨hq, hc, hh⟩ := hv
    unfold render_rpair render_rval render_sep ab2 rval_value
    dsimp only
    unfold take_header_info_kv
    rw [if_neg (by simp)]
    rw [takeUntil_first
          (show (k ++ ':' :: (wc ++ ('"' :: sv ++ ['"']))) ++ ((s ++ ',' :: t) ++ rest)
              = k ++ ':' :: (wc ++ ('"' :: (sv ++ ('"' :: (s ++ ',' :: (t ++ rest))))))
              from by simp)
          hwk.1]
    dsimp only
    rw [show pchar ':' (':' :: (wc ++ ('"' :: (sv ++ ('"' :: (s ++ ',' :: (t ++ rest)))))))
          = some (wc ++ ('"' :: (sv ++ ('"' :: (s ++ ',' :: (t ++ rest)))))) from by
        unfold pchar; dsimp only; rw [if_pos rfl]]
    dsimp only
    rw [space0_spaces hwc (fun c hc0 => by
        simp only [List.head?_cons, Option.some.injEq] at hc0
        rw [← hc0]
        decide)]
    rw [numeric_val_nondigit_head (by decide) (by decide)]
    dsimp only
    rw [string_val_spaces hq hc hh hs]
    dsimp only
    rw [show space0 (',' :: (t ++ rest)) = ',' :: (t ++ rest) from by
        unfold space0
        rw [List.dropWhile_cons]
        rfl]
    rw [show pchar ',' (',' :: (t ++ rest)) = some (t ++ rest) from by
        unfold pchar; dsimp only; rw [if_pos rfl]]
    dsimp only
    rw [space0_spaces ht hrest]

/-- A numeric pair followed by a whitespace-only separator parses to its key
and value: the digit scan stops at the whitespace (or at the next key's
head, which is never a digit), and the optional comma does not fire. -/
theorem kv_render_blank {p : RPair} {u rest : Str} (hwk : wf_key p.key)
    (hwc : allSpace p.wc) {ds : Str} (hval : p.val = RVal.num ds)
    (h1 : ds ≠ []) (h2 : ∀ x ∈ ds, isAsciiDigit x = true)
    (h3 : digitsToNat ds < 2 ^ 64) (hu : allSpace u)
    (hrne : rest ≠ []) (hg : headGood rest) :
    take_header_info_kv (render_rpair p ++ (render_sep (RSep.blank u) ++ rest))
      = some (rest, ab2 p) := by
  obtain ⟨k, wc, v⟩ := p
  dsimp only at hval hwc hwk ⊢
  subst hval
  cases rest with
  | nil => exact absurd rfl hrne
  | cons c rest' =>
    obtain ⟨hg1, hg2, hg3⟩ := hg c rfl
    unfold render_rpair render_rval render_sep ab2 rval_value
    dsimp only
    unfold take_header_info_kv
    rw [if_neg (by simp)]
    rw [takeUntil_first
          (show (k ++ ':' :: (wc ++ ds)) ++ (u ++ c :: rest')
              = k ++ ':' :: (wc ++ (ds ++ (u ++ c :: rest'))) from by simp)
          hwk.1]
    dsimp only
    rw [show pchar ':' (':' :: (wc ++ (ds ++ (u ++ c :: rest'))))
          = some (wc ++ (ds ++ (u ++ c :: rest'))) from by
        unfold pchar; dsimp only; rw [if_pos rfl]]
    dsimp only
    rw [space0_spaces hwc (headNotSpace_digits h1 h2 _)]
    rw [numeric_val_spaces h1 h2 h3 hu hg3 hg1]
    dsimp only
    rw [show space0 (c :: rest') = c :: rest' from by
        unfold space0
        rw [List.dropWhile_cons, hg1]
        rfl]
    rw [show pchar ',' (c :: rest') = none from by
        unfold pchar; dsimp only; rw [if_neg hg2]]

/-- `many1` over a rendered sequence (final pair numeric) returns all pairs in
order and stops at the closing quote. -/
theorem many1_render_seq : ∀ (ps : List (RPair × RSep)) (q : RPair) (w5 w6 : Str),
    (∀ e ∈ ps, wf_rpair e.1 ∧ sep_ok e = true) → wf_rpair q →
    rval_is_num q.val = true → allSpace w5 → allSpace w6 →
    many1_kv (render_seq ps q ++ (w5 ++ '"' :: w6))
      = some ('"' :: w6, ps.map (fun e => ab2 e.1) ++ [ab2 q]) := by
  intro ps
  induction ps with
  | nil =>
    intro q w5 w6 _ hq hqn hw5 hw6
    obtain ⟨hqk, hqv, hqw⟩ := hq
    obtain ⟨dq, hdq⟩ : ∃ dq, q.val = RVal.num dq := by
      cases hv : q.val with
      | num dq => exact ⟨dq, rfl⟩
      | str sv => rw [hv] at hqn; cases hqn
    rw [hdq] at hqv
    obtain ⟨h1, h2, h3⟩ := hqv
    show many1_kv (render_rpair q ++ (w5 ++ '"' :: w6)) = _
    rw [many1_kv_unfold]
    rw [kv_render_last hqk hqw hdq h1 h2 h3 hw5]
    dsimp only
    rw [many1_at_quote hw6]
    rfl
  | cons e rest ih =>
    intro q w5 w6 hps hq hqn hw5 hw6
    obtain ⟨p, sep⟩ := e
    obtain ⟨⟨hpk, hpv, hpw⟩, hsep⟩ := hps (p, sep) (by simp)
    have hps' : ∀ e ∈ rest, wf_rpair e.1 ∧ sep_ok e = true :=
      fun x hx => hps x (by simp [hx])
    have hkeys : ∀ e ∈ rest, wf_key e.1.key := fun x hx => (hps' x hx).1.1
    have hrest2 : headGood (render_seq rest q ++ (w5 ++ '"' :: w6)) :=
      headGood_render_seq rest q _ hkeys hq.1
    have hrestns : headNotSpace (render_seq rest q ++ (w5 ++ '"' :: w6)) :=
      fun c hc => (hrest2 c hc).1
    have hrne : render_seq rest q ++ (w5 ++ '"' :: w6) ≠ [] := by
      simp [render_seq_ne_nil]
    rw [show render_seq ((p, sep) :: rest) q ++ (w5 ++ '"' :: w6)
          = render_rpair p ++ (render_sep sep ++ (render_seq rest q ++ (w5 ++ '"' :: w6)))
          from by simp [render_seq]]
    rw [many1_kv_unfold]
    cases sep with
    | comma sc tc =>
      unfold sep_ok at hsep
      dsimp only at hsep
      simp only [Bool.and_eq_true, List.all_eq_true] at hsep
      obtain ⟨hsc, htc⟩ := hsep
      rw [kv_render_comma hpk hpw hpv hsc htc hrestns]
      dsimp only
      rw [ih q w5 w6 hps' hq hqn hw5 hw6]
      rfl
    | blank u =>
      unfold sep_ok at hsep
      dsimp only at hsep
      simp only [Bool.and_eq_true, List.all_eq_true] at hsep
      obtain ⟨hu, hnum⟩ := hsep
      obtain ⟨ds, hds⟩ : ∃ ds, p.val = RVal.num ds := by
        cases hv : p.val with
        | num ds => exact ⟨ds, rfl⟩
        | str sv => rw [hv] at hnum; cases hnum
      rw [hds] at hpv
      obtain ⟨h1, h2, h3⟩ := hpv
      rw [kv_render_blank hpk hpw hds h1 h2 h3 hu hrne hrest2]
      dsimp only
      rw [ih q w5 w6 hps' hq hqn hw5 hw6]
      rfl

/-- The parse phase on a rendered header (final pair numeric) succeeds with
empty remainder and exactly the rendered pairs. -/
theorem parse_header_pairs_render_ws (w0 : Str) (ps : List (RPair × RSep))
    (q : RPair) (w5 w6 : Str) (hw0 : allSpace w0)
    (hps : ∀ e ∈ ps, wf_rpair e.1 ∧ sep_ok e = true) (hq : wf_rpair q)
    (hqn : rval_is_num q.val = true) (hw5 : allSpace w5) (hw6 : allSpace w6) :
    parse_header_pairs (render_header_ws w0 ps q w5 w6)
      = some ([], ps.map (fun e => ab2 e.1) ++ [ab2 q]) := by
  have hkeys : ∀ e ∈ ps, wf_key e.1.key := fun x hx => (hps x hx).1.1
  have hhead : headNotSpace (render_seq ps q ++ (w5 ++ '"' :: w6)) :=
    fun c hc => (headGood_render_seq ps q _ hkeys hq.1 c hc).1
  unfold render_header_ws parse_header_pairs
  rw [show pchar '"' ('"' :: (w0 ++ (render_seq ps q ++ (w5 ++ '"' :: w6))))
        = some (w0 ++ (render_seq ps q ++ (w5 ++ '"' :: w6))) from by
      unfold pchar; dsimp only; rw [if_pos rfl]]
  dsimp only
  rw [space0_spaces hw0 hhead]
  rw [many1_render_seq ps q w5 w6 hps hq hqn hw5 hw6]
  dsimp only
  rw [show space0 ('"' :: w6) = '"' :: w6 from by
      unfold space0
      rw [List.dropWhile_cons]
      rfl]
  rw [show pchar '"' ('"' :: w6) = some w6 from by
      unfold pchar; dsimp only; rw [if_pos rfl]]
  dsimp only
  rw [show space0 w6 = [] from by
      unfold space0
      rw [List.dropWhile_eq_nil_iff]
      exact hw6]
  rw [if_pos rfl]

/-- C1: the claim says `parse_header_info` surfaces a typed, recoverable error
when a recognized numeric key (`steps`, `repeat`) carries a Text value or a
recognized string key (`pallet`, `extrinsic`) carries a Numeric value, and
that no input string causes a panic.  The code instead reaches the
`unreachable!("must")` trap of `Value::as_usize` / `Value::as_str` on such
well-formed headers, i.e. it panics: a Text value under `Steps` and a Numeric
value under `Pallet` both drive the fold into the trap. -/
theorem C1_type_mismatch_panics :
    parse_header_info (lchars "\"Steps: \"x\", Repeat: 1\"") = ParseOutcome.trap ∧
    parse_header_info (lchars "\"Pallet: 5, Repeat: 1\"") = ParseOutcome.trap := by
  constructor <;> decide

/-- C3: on the concrete header
`"Pallet: "pallet-utility", Extrinsic: "as_sub", Steps: 30, Repeat: 11"`
(outer quotes literal) `parse_header_info` succeeds with empty remainder and
returns exactly `{pallet_name := "pallet-utility", extrinsic := "as_sub",
steps := 30, repeat := 11}`. -/
theorem C3_roundtrip_example :
    parse_header_info
      (lchars "\"Pallet: \"pallet-utility\", Extrinsic: \"as_sub\", Steps: 30, Repeat: 11\"")
    = ParseOutcome.success []
        { «repeat» := 11, steps := 30,
          pallet_name := lchars "pallet-utility", extrinsic := lchars "as_sub" } := by
  decide

/-- C2 counterexample: three grammar-valid headers containing each of the
four recognized keys exactly once refute the claim as stated.  With a
string-keyed pair (`Extrinsic`) last, the parse fails: `string_val` requires
a comma after the quoted value (`take_until(",")`), so pair order is not
arbitrary.  With a comma inside a quoted string value (`"a,b"`), the parse
fails: the value slice is cut at the comma and loses its closing quote.
With the grammar-optional separator comma omitted after a string-valued
pair, the parse succeeds but the following pair is silently swallowed by
`map_parser`'s dropped leftover, so `extrinsic` is empty instead of `y`. -/
theorem C2_counterexample_string_key_last :
    parse_header_info
      (lchars "\"Steps: 30, Repeat: 11, Pallet: \"pallet-utility\", Extrinsic: \"as_sub\"\"")
      = ParseOutcome.failure ∧
    parse_header_info
      (lchars "\"Pallet: \"a,b\", Extrinsic: \"e\", Steps: 1, Repeat: 2\"")
      = ParseOutcome.failure ∧
    parse_header_info
      (lchars "\"Pallet: \"x\" Extrinsic: \"y\", Steps: 1, Repeat: 2\"")
      = ParseOutcome.success []
          { «repeat» := 2, steps := 1, pallet_name := ['x'], extrinsic := [] } := by
  refine ⟨by decide, by decide, by decide⟩

/-- C4 counterexample: on `"Steps: 30x, Repeat: 1"` (outer quotes literal) the
parser does not fail at the `Steps` field: `take_till` ends the digit scan at
`x`, the pair `("Steps", 30)` is accepted, and `x, Repeat` becomes the
(unrecognized) key of the following pair — so the parse succeeds with the
digit prefix `30` taken as the value of `steps` and `Repeat` silently lost. -/
theorem C4_counterexample_digit_prefix_accepted :
    parse_header_info (lchars "\"Steps: 30x, Repeat: 1\"")
    = ParseOutcome.success []
        { «repeat» := 0, steps := 30, pallet_name := [], extrinsic := [] } := by
  decide

/-- C7: `parse_header_info` requires at least one key/value pair: the pair
list of every successful parse phase is non-empty (`many1`), and both the
empty quoted header `""` and the doubly-quoted empty header `""""` are
rejected. -/
theorem C7_at_least_one_pair :
    (∀ (i rest : Str) (l : List (Str × Value)),
       parse_header_pairs i = some (rest, l) → l ≠ []) ∧
    parse_header_info (lchars "\"\"") = ParseOutcome.failure ∧
    parse_header_info (lchars "\"\"\"\"") = ParseOutcome.failure := by
  refine ⟨?_, by decide, by decide⟩
  intro i rest l h
  exact parse_header_pairs_ne_nil h

/-- C7 witness: the single-pair header `"A: 1"` parses to a one-element,
hence non-empty, pair list. -/
theorem C7_witness :
    ([(['A'], Value.Numeric 1)] : List (Str × Value)) ≠ [] :=
  C7_at_least_one_pair.1 (lchars "\"A: 1\"") [] [(['A'], Value.Numeric 1)]
    (by decide)

/-- C8: on every accepted header, a recognized key that never occurs among
the parsed pairs leaves its Metadata Record field at the default (`0` for
`steps`/`repeat`, empty string for `pallet_name`/`extrinsic`); each field
depends only on its own key's occurrences. -/
theorem C8_missing_keys_default :
    ∀ (i rest : Str) (l : List (Str × Value)) (h : HeaderInfo),
    parse_header_pairs i = some (rest, l) →
    parse_header_info i = ParseOutcome.success rest h →
    (occ ("steps".toList) l = [] → h.steps = 0) ∧
    (occ ("repeat".toList) l = [] → h.«repeat» = 0) ∧
    (occ ("pallet".toList) l = [] → h.pallet_name = []) ∧
    (occ ("extrinsic".toList) l = [] → h.extrinsic = []) := by
  intro i rest l h hp hs
  unfold parse_header_info at hs
  rw [hp] at hs
  dsimp only at hs
  cases hf : fold_pairs l with
  | none => rw [hf] at hs; cases hs
  | some h' =>
    rw [hf] at hs
    have hh : h = h' := by cases hs; rfl
    subst hh
    obtain ⟨h1, h2, h3, h4⟩ := fold_from_fields l HeaderInfo.default h hf
    refine ⟨fun ho => ?_, fun ho => ?_, fun ho => ?_, fun ho => ?_⟩
    · rw [h1, field_fold_getLast, ho]; rfl
    · rw [h2, field_fold_getLast, ho]; rfl
    · rw [h3, field_fold_getLast, ho]; rfl
    · rw [h4, field_fold_getLast, ho]; rfl

/-- C8 witness: `"Pallet: "p", Foo: 1"` mentions neither `steps`, `repeat`
nor `extrinsic`; the accepted record keeps those fields at their defaults. -/
theorem C8_witness :
    ({ «repeat» := 0, steps := 0, pallet_name := ['p'], extrinsic := [] }
       : HeaderInfo).steps = 0 ∧
    ({ «repeat» := 0, steps := 0, pallet_name := ['p'], extrinsic := [] }
       : HeaderInfo).«repeat» = 0 ∧
    ({ «repeat» := 0, steps := 0, pallet_name := ['p'], extrinsic := [] }
       : HeaderInfo).extrinsic = [] := by
  have h := C8_missing_keys_default (lchars "\"Pallet: \"p\", Foo: 1\"") []
    [(lchars "Pallet", Value.String ['p']), (lchars "Foo", Value.Numeric 1)]
    { «repeat» := 0, steps := 0, pallet_name := ['p'], extrinsic := [] }
    (by decide) (by decide)
  exact ⟨h.1 (by decide), h.2.1 (by decide), h.2.2.2 (by decide)⟩

/-- C9: a well-formed pair whose lowercased key is not in the recognized-key
table never causes failure and never affects the result: the fold is invariant
under dropping all unrecognized-key pairs (their values are discarded with a
warning as the only effect), and concretely `"Foo: 1, Steps: 2"` is accepted
with `steps = 2` and all other fields at their defaults. -/
theorem C9_unknown_keys_ignored :
    (∀ (l : List (Str × Value)),
       fold_pairs (l.filter (fun kv => (SUPPORTED (toLowerStr kv.1)).isSome))
         = fold_pairs l) ∧
    parse_header_info (lchars "\"Foo: 1, Steps: 2\"")
      = ParseOutcome.success []
          { «repeat» := 0, steps := 2, pallet_name := [], extrinsic := [] } := by
  refine ⟨?_, by decide⟩
  intro l
  exact fold_filter_recognized l HeaderInfo.default

/-- C9 witness: dropping the unrecognized pair `foo` from a concrete pair
list leaves the fold unchanged. -/
theorem C9_witness :
    fold_pairs ([(lchars "Foo", Value.Numeric 1),
                 (lchars "Steps", Value.Numeric 2)].filter
       (fun kv => (SUPPORTED (toLowerStr kv.1)).isSome))
      = fold_pairs [(lchars "Foo", Value.Numeric 1),
                    (lchars "Steps", Value.Numeric 2)] :=
  C9_unknown_keys_ignored.1
    [(lchars "Foo", Value.Numeric 1), (lchars "Steps", Value.Numeric 2)]

/-- C10: on every accepted header, when a recognized key occurs several times
the field holds the value of the last (rightmost) occurrence: the left-to-
right fold overwrites earlier assignments. -/
theorem C10_last_occurrence_wins :
    ∀ (i rest : Str) (l : List (Str × Value)) (h : HeaderInfo),
    parse_header_pairs i = some (rest, l) →
    parse_header_info i = ParseOutcome.success rest h →
    (∀ k n, (occ ("steps".toList) l).getLast? = some (k, Value.Numeric n) →
       h.steps = n) ∧
    (∀ k n, (occ ("repeat".toList) l).getLast? = some (k, Value.Numeric n) →
       h.«repeat» = n) ∧
    (∀ k v, (occ ("pallet".toList) l).getLast? = some (k, Value.String v) →
       h.pallet_name = v) ∧
    (∀ k v, (occ ("extrinsic".toList) l).getLast? = some (k, Value.String v) →
       h.extrinsic = v) := by
  intro i rest l h hp hs
  unfold parse_header_info at hs
  rw [hp] at hs
  dsimp only at hs
  cases hf : fold_pairs l with
  | none => rw [hf] at hs; cases hs
  | some h' =>
    rw [hf] at hs
    have hh : h = h' := by cases hs; rfl
    subst hh
    obtain ⟨h1, h2, h3, h4⟩ := fold_from_fields l HeaderInfo.default h hf
    refine ⟨fun k n ho => ?_, fun k n ho => ?_,
            fun k v ho => ?_, fun k v ho => ?_⟩
    · rw [h1, field_fold_getLast, ho]; rfl
    · rw [h2, field_fold_getLast, ho]; rfl
    · rw [h3, field_fold_getLast, ho]; rfl
    · rw [h4, field_fold_getLast, ho]; rfl

/-- C10 witness: `"Steps: 1, Steps: 2"` is accepted with `steps = 2`, the
value of the second (last) `Steps` pair. -/
theorem C10_witness :
    ({ «repeat» := 0, steps := 2, pallet_name := [], extrinsic := [] }
       : HeaderInfo).steps = 2 :=
  (C10_last_occurrence_wins (lchars "\"Steps: 1, Steps: 2\"") []
      [(lchars "Steps", Value.Numeric 1), (lchars "Steps", Value.Numeric 2)]
      { «repeat» := 0, steps := 2, pallet_name := [], extrinsic := [] }
      (by decide) (by decide)).1
    (lchars "Steps") 2 (by decide)

/-- C6: strict total-match semantics: on every success the returned remainder
is empty and the input necessarily ends with the closing double quote followed
only by spaces/tabs; conversely any input whose content after the final double
quote is not all whitespace (or which has no double quote at all) is rejected
with a parse failure. -/
theorem C6_total_match :
    (∀ (i rest : Str) (h : HeaderInfo),
       parse_header_info i = ParseOutcome.success rest h →
       rest = [] ∧ ends_quote_spaces i = true) ∧
    (∀ i : Str, ends_quote_spaces i = false →
       parse_header_info i = ParseOutcome.failure) := by
  constructor
  · intro i rest h hs
    unfold parse_header_info at hs
    cases hp : parse_header_pairs i with
    | none => rw [hp] at hs; cases hs
    | some p =>
      obtain ⟨r, kvs⟩ := p
      rw [hp] at hs
      dsimp only at hs
      cases hf : fold_pairs kvs with
      | none => rw [hf] at hs; cases hs
      | some h' =>
        rw [hf] at hs
        have hr : r = rest := by cases hs; rfl
        subst hr
        exact parse_header_pairs_structure hp
  · intro i he
    unfold parse_header_info
    cases hp : parse_header_pairs i with
    | none => rfl
    | some p =>
      obtain ⟨r, kvs⟩ := p
      have := (parse_header_pairs_structure hp).2
      rw [this] at he
      cases he

/-- C6 witness: the accepted header `"A: 1"` has empty remainder and the
quote-then-spaces tail shape; the input `"A: 1" x`, which carries non-space
content after its final quote, is rejected. -/
theorem C6_witness :
    (([] : Str) = [] ∧ ends_quote_spaces (lchars "\"A: 1\"") = true) ∧
    parse_header_info (lchars "\"A: 1\" x") = ParseOutcome.failure :=
  ⟨C6_total_match.1 (lchars "\"A: 1\"") []
      { «repeat» := 0, steps := 0, pallet_name := [], extrinsic := [] }
      (by decide),
   C6_total_match.2 (lchars "\"A: 1\" x") (by decide)⟩

/-- C5: a digit run whose base-10 value exceeds the 64-bit range is a parse
failure wherever it stands as a value: `numeric_val` rejects it no matter
what follows (the value is never wrapped or truncated), the surrounding
key/value parser rejects the whole pair (the quoted-string fallback cannot
start at a digit), and the concrete header carrying the value `2^64` fails. -/
theorem C5_numeric_overflow :
    (∀ (ds rest : Str), ds ≠ [] → (∀ c ∈ ds, isAsciiDigit c = true) →
       2 ^ 64 ≤ digitsToNat ds →
       numeric_val (ds ++ rest) = none ∧
       ∀ k : Str, ':' ∉ k →
         take_header_info_kv (k ++ ':' :: (ds ++ rest)) = none) ∧
    parse_header_info (lchars "\"Steps: 18446744073709551616, Repeat: 1\"")
      = ParseOutcome.failure := by
  refine ⟨?_, by decide⟩
  intro ds rest hne hall hov
  exact ⟨numeric_val_overflow hne hall hov,
         fun k hk => take_header_info_kv_overflow hk hne hall hov⟩

/-- C5 witness: the digit run of `2^64` overflows and is rejected both as a
bare value and inside a `Steps:` pair. -/
theorem C5_witness :
    numeric_val (lchars "18446744073709551616" ++ []) = none ∧
    take_header_info_kv
      (lchars "Steps" ++ ':' :: (lchars "18446744073709551616" ++ [])) = none :=
  ⟨(C5_numeric_overflow.1 (lchars "18446744073709551616") []
      (by decide) (by decide) (by decide)).1,
   (C5_numeric_overflow.1 (lchars "18446744073709551616") []
      (by decide) (by decide) (by decide)).2 (lchars "Steps") (by decide)⟩

/-- C4 (amended): when a value's digit run is immediately followed by
non-digit, non-separator, non-space content, the parser does not fail at that
field: `numeric_val` succeeds with exactly the digit prefix as the numeric
value, leaving the junk unconsumed (it is then absorbed into the next pair's
key, or trips the closing-quote match); concretely `"Steps: 30x, Repeat: 1"`
is accepted with `steps = 30` and `x, Repeat` demoted to an unknown key. -/
theorem C4_amended_digit_run :
    (∀ (ds rest : Str) (c : Char), ds ≠ [] →
       (∀ d ∈ ds, isAsciiDigit d = true) → digitsToNat ds < 2 ^ 64 →
       isDigitCast c = false → isSpaceTab c = false →
       numeric_val (ds ++ c :: rest)
         = some (c :: rest, Value.Numeric (digitsToNat ds))) ∧
    parse_header_info (lchars "\"Steps: 30x, Repeat: 1\"")
      = ParseOutcome.success []
          { «repeat» := 0, steps := 30, pallet_name := [], extrinsic := [] } :=
  ⟨numeric_val_digit_run, by decide⟩

/-- C4 witness: `numeric_val` on `30x` succeeds with value 30 and leaves `x`
unconsumed. -/
theorem C4_witness :
    numeric_val (lchars "30" ++ 'x' :: [])
      = some ('x' :: [], Value.Numeric (digitsToNat (lchars "30"))) :=
  C4_amended_digit_run.1 (lchars "30") [] 'x'
    (by decide) (by decide) (by decide) (by decide) (by decide)

/-- C2 (amended): every header built from the four recognized keys — each
exactly once, in any letter case, in any pair order whose FINAL pair is
numeric-keyed (`steps`/`repeat`) — parses to exactly the supplied values,
with arbitrary whitespace (spaces/tabs) in every grammar slot: after the
opening quote, after each colon, after each value, around each separator
comma, and around the closing quote; the separator comma may be omitted
after a numeric-valued pair, and string values contain no double quote, no
comma, and no leading whitespace.  A second conjunct exercises a concrete
whitespace-laden header.  The restrictions relative to the original claim
are exactly the ones the counterexample forces: no string-keyed pair last,
no comma inside a string value, and a mandatory comma after a string-valued
pair. -/
theorem C2_amended_all_keys_once :
    (∀ (w0 w5 w6 : Str) (ps : List (RPair × RSep)) (q : RPair)
       (k1 k2 k3 k4 vp ve ds dr : Str),
       (ps.map (fun e => (e.1.key, e.1.val)) ++ [(q.key, q.val)]).Perm
         [(k1, RVal.str vp), (k2, RVal.str ve),
          (k3, RVal.num ds), (k4, RVal.num dr)] →
       toLowerStr k1 = "pallet".toList →
       toLowerStr k2 = "extrinsic".toList →
       toLowerStr k3 = "steps".toList →
       toLowerStr k4 = "repeat".toList →
       '"' ∉ vp → ',' ∉ vp → headNotSpace vp →
       '"' ∉ ve → ',' ∉ ve → headNotSpace ve →
       ds ≠ [] → (∀ c ∈ ds, isAsciiDigit c = true) → digitsToNat ds < 2 ^ 64 →
       dr ≠ [] → (∀ c ∈ dr, isAsciiDigit c = true) → digitsToNat dr < 2 ^ 64 →
       allSpace w0 → allSpace w5 → allSpace w6 →
       (∀ e ∈ ps, allSpace e.1.wc) → allSpace q.wc →
       (∀ e ∈ ps, sep_ok e = true) →
       rval_is_num q.val = true →
       parse_header_info (render_header_ws w0 ps q w5 w6)
         = ParseOutcome.success []
             { «repeat» := digitsToNat dr, steps := digitsToNat ds,
               pallet_name := vp, extrinsic := ve }) ∧
    parse_header_info
      (lchars "\"  Pallet:   \"pallet-utility\"  ,  Extrinsic: \"as_sub\", Steps:  30  , Repeat: 11  \"")
      = ParseOutcome.success []
          { «repeat» := 11, steps := 30,
            pallet_name := lchars "pallet-utility",
            extrinsic := lchars "as_sub" } := by
  refine ⟨?_, by decide⟩
  intro w0 w5 w6 ps q k1 k2 k3 k4 vp ve ds dr hperm hk1 hk2 hk3 hk4
    hvq hvc hvh heq hec heh hd1 hd2 hd3 hr1 hr2 hr3
    hw0 hw5 hw6 hwcs hqwc hseps hqn
  have hwfkv : ∀ kk vv,
      (kk, vv) ∈ (ps.map (fun e => (e.1.key, e.1.val)) ++ [(q.key, q.val)]) →
      wf_key kk ∧ wf_rval vv := by
    intro kk vv hmem
    have h4 := hperm.mem_iff.mp hmem
    simp only [List.mem_cons, List.not_mem_nil, or_false, Prod.mk.injEq] at h4
    rcases h4 with ⟨rfl, rfl⟩ | ⟨rfl, rfl⟩ | ⟨rfl, rfl⟩ | ⟨rfl, rfl⟩
    · exact ⟨wf_key_of_lower hk1 (by decide)
        (@headGood_lit ("pallet".toList) 'p' (by decide) (by decide)
          (by decide) (by decide)), hvq, hvc, hvh⟩
    · exact ⟨wf_key_of_lower hk2 (by decide)
        (@headGood_lit ("extrinsic".toList) 'e' (by decide) (by decide)
          (by decide) (by decide)), heq, hec, heh⟩
    · exact ⟨wf_key_of_lower hk3 (by decide)
        (@headGood_lit ("steps".toList) 's' (by decide) (by decide)
          (by decide) (by decide)), hd1, hd2, hd3⟩
    · exact ⟨wf_key_of_lower hk4 (by decide)
        (@headGood_lit ("repeat".toList) 'r' (by decide) (by decide)
          (by decide) (by decide)), hr1, hr2, hr3⟩
  have hwfps : ∀ e ∈ ps, wf_rpair e.1 ∧ sep_ok e = true := by
    intro e he
    have hm : (e.1.key, e.1.val)
        ∈ (ps.map (fun x => (x.1.key, x.1.val)) ++ [(q.key, q.val)]) :=
      List.mem_append_left _ (List.mem_map_of_mem _ he)
    obtain ⟨hk, hv⟩ := hwfkv e.1.key e.1.val hm
    exact ⟨⟨hk, hv, hwcs e he⟩, hseps e he⟩
  have hwfq : wf_rpair q := by
    have hm : (q.key, q.val)
        ∈ (ps.map (fun x => (x.1.key, x.1.val)) ++ [(q.key, q.val)]) :=
      List.mem_append_right _ (by simp)
    obtain ⟨hk, hv⟩ := hwfkv q.key q.val hm
    exact ⟨hk, hv, hqwc⟩
  have hpairs :=
    parse_header_pairs_render_ws w0 ps q w5 w6 hw0 hwfps hwfq hqn hw5 hw6
  have hmap : (ps.map (fun e => ab2 e.1) ++ [ab2 q]).Perm
      [(k1, Value.String vp), (k2, Value.String ve),
       (k3, Value.Numeric (digitsToNat ds)),
       (k4, Value.Numeric (digitsToNat dr))] := by
    have hm := hperm.map (fun kv => (kv.1, rval_value kv.2))
    simpa [ab2, rval_value, Function.comp] using hm
  have htok : ∀ kv ∈ (ps.map (fun e => ab2 e.1) ++ [ab2 q]), typeOk kv := by
    intro kv hkv
    have h4 := hmap.mem_iff.mp hkv
    simp only [List.mem_cons, List.not_mem_nil, or_false] at h4
    rcases h4 with rfl | rfl | rfl | rfl
    · unfold typeOk
      dsimp only
      rw [hk1, show SUPPORTED ("pallet".toList) = some ValueType.String
            from by decide]
      exact ⟨vp, rfl⟩
    · unfold typeOk
      dsimp only
      rw [hk2, show SUPPORTED ("extrinsic".toList) = some ValueType.String
            from by decide]
      exact ⟨ve, rfl⟩
    · unfold typeOk
      dsimp only
      rw [hk3, show SUPPORTED ("steps".toList) = some ValueType.Numeric
            from by decide]
      exact ⟨digitsToNat ds, rfl⟩
    · unfold typeOk
      dsimp only
      rw [hk4, show SUPPORTED ("repeat".toList) = some ValueType.Numeric
            from by decide]
      exact ⟨digitsToNat dr, rfl⟩
  obtain ⟨h, hfold⟩ :=
    fold_from_total (ps.map (fun e => ab2 e.1) ++ [ab2 q])
      HeaderInfo.default htok
  obtain ⟨hsteps, hrep, hpal, hext⟩ :=
    fold_from_fields (ps.map (fun e => ab2 e.1) ++ [ab2 q])
      HeaderInfo.default h hfold
  have hpal' : h.pallet_name = vp := by
    rw [hpal, field_fold_getLast]
    have ho : occ ("pallet".toList) (ps.map (fun e => ab2 e.1) ++ [ab2 q])
        = [(k1, Value.String vp)] := by
      apply List.perm_singleton.mp
      have hpf := hmap.filter
        (fun kv => decide (toLowerStr kv.1 = "pallet".toList))
      rw [show List.filter
            (fun kv => decide (toLowerStr kv.1 = "pallet".toList))
            [(k1, Value.String vp), (k2, Value.String ve),
             (k3, Value.Numeric (digitsToNat ds)),
             (k4, Value.Numeric (digitsToNat dr))]
            = [(k1, Value.String vp)] from by
          simp only [List.filter_cons, List.filter_nil]
          rw [hk1, hk2, hk3, hk4]
          rw [show (decide (("pallet".toList : Str) = "pallet".toList))
               = true from by decide,
             show (decide (("extrinsic".toList : Str) = "pallet".toList))
               = false from by decide,
             show (decide (("steps".toList : Str) = "pallet".toList))
               = false from by decide,
             show (decide (("repeat".toList : Str) = "pallet".toList))
               = false from by decide]
          rfl] at hpf
      exact hpf
    rw [ho, List.getLast?_singleton]
    rfl
  have hext' : h.extrinsic = ve := by
    rw [hext, field_fold_getLast]
    have ho : occ ("extrinsic".toList) (ps.map (fun e => ab2 e.1) ++ [ab2 q])
        = [(k2, Value.String ve)] := by
      apply List.perm_singleton.mp
      have hpf := hmap.filter
        (fun kv => decide (toLowerStr kv.1 = "extrinsic".toList))
      rw [show List.filter
            (fun kv => decide (toLowerStr kv.1 = "extrinsic".toList))
            [(k1, Value.String vp), (k2, Value.String ve),
             (k3, Value.Numeric (digitsToNat ds)),
             (k4, Value.Numeric (digitsToNat dr))]
            = [(k2, Value.String ve)] from by
          simp only [List.filter_cons, List.filter_nil]
          rw [hk1, hk2, hk3, hk4]
          rw [show (decide (("pallet".toList : Str) = "extrinsic".toList))
               = false from by decide,
             show (decide (("extrinsic".toList : Str) = "extrinsic".toList))
               = true from by decide,
             show (decide (("steps".toList : Str) = "extrinsic".toList))
               = false from by decide,
             show (decide (("repeat".toList : Str) = "extrinsic".toList))
               = false from by decide]
          rfl] at hpf
      exact hpf
    rw [ho, List.getLast?_singleton]
    rfl
  have hsteps' : h.steps = digitsToNat ds := by
    rw [hsteps, field_fold_getLast]
    have ho : occ ("steps".toList) (ps.map (fun e => ab2 e.1) ++ [ab2 q])
        = [(k3, Value.Numeric (digitsToNat ds))] := by
      apply List.perm_singleton.mp
      have hpf := hmap.filter
        (fun kv => decide (toLowerStr kv.1 = "steps".toList))
      rw [show List.filter
            (fun kv => decide (toLowerStr kv.1 = "steps".toList))
            [(k1, Value.String vp), (k2, Value.String ve),
             (k3, Value.Numeric (digitsToNat ds)),
             (k4, Value.Numeric (digitsToNat dr))]
            = [(k3, Value.Numeric (digitsToNat ds))] from by
          simp only [List.filter_cons, List.filter_nil]
          rw [hk1, hk2, hk3, hk4]
          rw [show (decide (("pallet".toList : Str) = "steps".toList))
               = false from by decide,
             show (decide (("extrinsic".toList : Str) = "steps".toList))
               = false from by decide,
             show (decide (("steps".toList : Str) = "steps".toList))
               = true from by decide,
             show (decide (("repeat".toList : Str) = "steps".toList))
               = false from by decide]
          rfl] at hpf
      exact hpf
    rw [ho, List.getLast?_singleton]
    rfl
  have hrep' : h.«repeat» = digitsToNat dr := by
    rw [hrep, field_fold_getLast]
    have ho : occ ("repeat".toList) (ps.map (fun e => ab2 e.1) ++ [ab2 q])
        = [(k4, Value.Numeric (digitsToNat dr))] := by
      apply List.perm_singleton.mp
      have hpf := hmap.filter
        (fun kv => decide (toLowerStr kv.1 = "repeat".toList))
      rw [show List.filter
            (fun kv => decide (toLowerStr kv.1 = "repeat".toList))
            [(k1, Value.String vp), (k2, Value.String ve),
             (k3, Value.Numeric (digitsToNat ds)),
             (k4, Value.Numeric (digitsToNat dr))]
            = [(k4, Value.Numeric (digitsToNat dr))] from by
          simp only [List.filter_cons, List.filter_nil]
          rw [hk1, hk2, hk3, hk4]
          rw [show (decide (("pallet".toList : Str) = "repeat".toList))
               = false from by decide,
             show (decide (("extrinsic".toList : Str) = "repeat".toList))
               = false from by decide,
             show (decide (("steps".toList : Str) = "repeat".toList))
               = false from by decide,
             show (decide (("repeat".toList : Str) = "repeat".toList))
               = true from by decide]
          rfl] at hpf
      exact hpf
    rw [ho, List.getLast?_singleton]
    rfl
  unfold parse_header_info
  rw [hpairs]
  dsimp only
  rw [show fold_pairs (ps.map (fun e => ab2 e.1) ++ [ab2 q]) = some h
        from hfold]
  rw [show h = { «repeat» := digitsToNat dr, steps := digitsToNat ds,
                 pallet_name := vp, extrinsic := ve } from by
      obtain ⟨r0, s0, p0, e0⟩ := h
      simp only at hsteps' hrep' hpal' hext'
      rw [hsteps', hrep', hpal', hext']]

/-- Witness for C2: the universal part instantiated on a concrete header with
mixed key case, whitespace in every slot, a comma-less separator after the
numeric `Steps` pair, and a trailing numeric-keyed pair. -/
theorem C2_witness :
    parse_header_info
      (render_header_ws [' ']
        [(⟨lchars "Pallet", [' '], RVal.str (lchars "pallet-utility")⟩,
            RSep.comma [' '] [' ']),
         (⟨lchars "EXTRINSIC", [], RVal.str (lchars "as_sub")⟩,
            RSep.comma [] [' ']),
         (⟨lchars "Steps", [' '], RVal.num (lchars "30")⟩,
            RSep.blank ['\t'])]
        ⟨lchars "repeat", [' '], RVal.num (lchars "11")⟩ [' '] [' '])
      = ParseOutcome.success []
          { «repeat» := 11, steps := 30,
            pallet_name := lchars "pallet-utility",
            extrinsic := lchars "as_sub" } := by
  have h := C2_amended_all_keys_once.1 [' '] [' '] [' ']
    [(⟨lchars "Pallet", [' '], RVal.str (lchars "pallet-utility")⟩,
        RSep.comma [' '] [' ']),
     (⟨lchars "EXTRINSIC", [], RVal.str (lchars "as_sub")⟩,
        RSep.comma [] [' ']),
     (⟨lchars "Steps", [' '], RVal.num (lchars "30")⟩,
        RSep.blank ['\t'])]
    ⟨lchars "repeat", [' '], RVal.num (lchars "11")⟩
    (lchars "Pallet") (lchars "EXTRINSIC") (lchars "Steps") (lchars "repeat")
    (lchars "pallet-utility") (lchars "as_sub") (lchars "30") (lchars "11")
    (by decide) (by decide) (by decide) (by decide) (by decide)
    (by decide) (by decide)
    (@headNotSpace_lit (lchars "pallet-utility") 'p' (by decide) (by decide))
    (by decide) (by decide)
    (@headNotSpace_lit (lchars "as_sub") 'a' (by decide) (by decide))
    (by decide) (by decide) (by decide)
    (by decide) (by decide) (by decide)
    (by unfold allSpace; decide) (by unfold allSpace; decide)
    (by unfold allSpace; decide)
    (by
      intro e he
      simp only [List.mem_cons, List.not_mem_nil, or_false] at he
      rcases he with rfl | rfl | rfl <;> (unfold allSpace; decide))
    (by unfold allSpace; decide)
    (by decide) (by decide)
  exact h

end Plem
